import Mathlib

/-!
# Chebyshev sine approximator (`sine_chebyshev.c`)

A shallow embedding of `public/data/chapters/chapter_01_arithmetic/sine/sine_chebyshev.c`;
the two field-extractor programs of the same chapter, `logic.c` and `logic_advanced.c`, follow
in the namespaces `Logic` and `LogicAdvanced`.

* `double` is read as an ordered field `R` with exact arithmetic; the theorems take `R = ℝ`.
  The number of loop iterations of the range reduction depends on rounding, so it is counted
  on `range_reduce_rounded`, where sums and differences are rounded to binary64
  (`round_binary64`) and `M_PI` is the `double` constant `M_PI_binary64`.
* The `<math.h>` items the program uses (`M_PI`, `sin`, `cos`) and the `<stdlib.h>`/`<time.h>`
  items (`atoi`, `atof`, `clock`, `CLOCKS_PER_SEC`) are arguments of the definitions, so the
  definitions stay executable over `ℚ`. Statements about the reduction, the recurrence and
  `main` hold for every positive `M_PI`; statements that involve the sine itself instantiate
  `M_PI`, `sin`, `cos` with `Real.pi`, `Real.sin`, `Real.cos`.
* `while` loops carry a fuel argument and count their iterations; array reads return `Option`,
  so a run that returns `some v` has read no cell outside its block.
* `cheb_coeff`, `cheb_series` and `alias_weight` are not part of the program: they name the
  closed forms used in the accuracy proof.
-/

namespace Sine

/-! ## Control-flow helpers -/

/-- Counted loop `for (i = 0; i < n; i++) s = body i s`. -/
def forLoop {σ : Type} (body : Nat → σ → σ) : Nat → σ → σ
  | 0, s => s
  | n + 1, s => body n (forLoop body n s)

/-- Counted loop whose body may fail. -/
def forLoopM {σ : Type} (body : Nat → σ → Option σ) : Nat → σ → Option σ
  | 0, s => some s
  | n + 1, s => (forLoopM body n s).bind (body n)

/-- Loop `while (cond s) s = body s` with fuel; returns the final state and the number of
iterations executed, or `none` when the fuel does not suffice. -/
def whileLoop {σ : Type} (cond : σ → Bool) (body : σ → σ) : Nat → σ → Option (σ × Nat)
  | 0, s => if cond s then none else some (s, 0)
  | fuel + 1, s =>
    if cond s then (whileLoop cond body fuel (body s)).map (fun r => (r.1, r.2 + 1))
    else some (s, 0)

/-- Block returned by `malloc (n * sizeof (double))`: `n` cells, contents unspecified
(taken as `0`); an `int` count that is not positive gives no cell. -/
def malloc {R : Type} [Zero R] (n : Nat) : List R := List.replicate n 0

section Defs

variable {R : Type} [LinearOrderedField R] [FloorRing R]

/-- C `fmod x y` for `y ≠ 0`: `x - trunc (x / y) * y`, truncation toward zero. -/
def fmod (x y : R) : R :=
  x - ((if 0 ≤ x / y then ⌊x / y⌋ else ⌈x / y⌉ : Int) : R) * y

/-- Record `SineChebyshev`: `int terms; double *coeffs`. -/
structure SineChebyshev (R : Type) where
  terms : Int
  coeffs : List R

/-- Function `init_chebyshev (sc, N)`, lines 17-39. -/
def init_chebyshev (M_PI : R) (sin cos : R → R) (N : Int) : SineChebyshev R :=
  let n := N.toNat
  let nodes : List R :=
    forLoop (fun j nodes => nodes.set j (cos (M_PI * (2.0 * (j : R) + 1.0) / (2.0 * (N : R)))))
      n (malloc n)
  let coeffs : List R :=
    forLoop (fun k coeffs =>
        let sum : R :=
          forLoop (fun j sum =>
              let u_j := nodes.getD j 0
              let f_val := sin (u_j * M_PI)
              let t_val := cos ((k : R) * M_PI * (2.0 * (j : R) + 1.0) / (2.0 * (N : R)))
              sum + f_val * t_val)
            n 0.0
        coeffs.set k ((2.0 / (N : R)) * sum))
      n (malloc n)
  { terms := N, coeffs := coeffs }

/-- Range reduction of `calculate_chebyshev`, lines 44-59, in exact arithmetic: the reduced
angle and the total number of iterations of the two `while` loops (`range_reduce_rounded`
below counts the iterations when sums and differences are rounded). -/
def range_reduce (M_PI : R) (fuel : Nat) (x : R) : Option (R × Nat) := do
  let x := fmod x (2.0 * M_PI)
  let x := if x > M_PI then x - 2.0 * M_PI else x
  let (x, n1) ← whileLoop (fun x => decide (x < 0)) (fun x => x + 2.0 * M_PI) fuel x
  let (x, n2) ← whileLoop (fun x => decide (x ≥ 2.0 * M_PI)) (fun x => x - 2.0 * M_PI) fuel x
  let x := if x > M_PI then x - 2.0 * M_PI else x
  pure (x, n1 + n2)

/-- Rounding of a real to the nearest integer, ties to the even one (the IEEE 754 default
rounding direction). -/
def round_ties_even (y : R) : Int :=
  if y - ⌊y⌋ < 1 / 2 then ⌊y⌋
  else if 1 / 2 < y - ⌊y⌋ then ⌊y⌋ + 1
  else if ⌊y⌋ % 2 = 0 then ⌊y⌋ else ⌊y⌋ + 1

/-- Rounding of a real to the nearest `double` (binary64: 53 significant bits, ties to even).
The exponent range is not bounded; the values the range reduction computes are far from
overflow and underflow. -/
def round_binary64 (x : R) : R :=
  if x = 0 then 0
  else (round_ties_even (x / 2 ^ (Int.log 2 |x| - 52)) : R) * 2 ^ (Int.log 2 |x| - 52)

/-- The constant `M_PI` of `<math.h>` as the program holds it: the `double` nearest to the
literal `3.14159265358979323846`. -/
def M_PI_binary64 : R := round_binary64 3.14159265358979323846

/-- Range reduction of `calculate_chebyshev`, lines 44-59, as executed on `double`s: the
result of every `+=` and `-=` is rounded by `rnd` (`fmod` is exact in IEEE arithmetic, and so
is the doubling `2.0 * M_PI`). Returns the reduced angle and the number of iterations of the
first and of the second `while` loop. -/
def range_reduce_rounded (rnd : R → R) (M_PI : R) (fuel : Nat) (x : R) :
    Option (R × Nat × Nat) := do
  let x := fmod x (2.0 * M_PI)
  let x := if x > M_PI then rnd (x - 2.0 * M_PI) else x
  let (x, n1) ← whileLoop (fun x => decide (x < 0)) (fun x => rnd (x + 2.0 * M_PI)) fuel x
  let (x, n2) ← whileLoop (fun x => decide (x ≥ 2.0 * M_PI)) (fun x => rnd (x - 2.0 * M_PI)) fuel x
  let x := if x > M_PI then rnd (x - 2.0 * M_PI) else x
  pure (x, n1, n2)

/-- Clenshaw loop of `calculate_chebyshev`, lines 70-74: `k` counts down to 1, the state
is `(b1, b2)`. -/
def clenshaw_loop (coeffs : List R) (y : R) : Nat → R × R → Option (R × R)
  | 0, b => some b
  | k + 1, (b1, b2) => do
    let c ← coeffs[k + 1]?
    let b0 := c + y * b1 - b2
    clenshaw_loop coeffs y k (b0, b1)

/-- Clenshaw evaluation, lines 64-76, at the normalised argument `u`. -/
def clenshaw (sc : SineChebyshev R) (u : R) : Option R := do
  let y := 2.0 * u
  let (b1, b2) ← clenshaw_loop sc.coeffs y (sc.terms - 1).toNat (0.0, 0.0)
  let c0 ← sc.coeffs[0]?
  pure (0.5 * c0 + u * b1 - b2)

/-- Function `calculate_chebyshev (sc, x)`, lines 42-77. -/
def calculate_chebyshev (M_PI : R) (fuel : Nat) (sc : SineChebyshev R) (x : R) : Option R := do
  let (x, _) ← range_reduce M_PI fuel x
  let u := x / M_PI
  clenshaw sc u

/-- Array `test_angles` of `main`, lines 103-114. -/
def test_angles (M_PI : R) : List R :=
  [0.0, M_PI / 6.0, M_PI / 4.0, M_PI / 2.0, M_PI, 3.0 * M_PI / 2.0, 2.0 * M_PI, 10.5, -5.5, 100.0]

/-- Timed double loop of `main`, lines 122-126. The state is the sink `dummy` together with
a count of the calls of `calculate_chebyshev` made so far. -/
def benchmark_loop (M_PI : R) (fuel : Nat) (sc : SineChebyshev R) (angles : List R)
    (num_angles iterations : Nat) : Option (R × Nat) :=
  forLoopM (fun _ st =>
      forLoopM (fun k st => do
          let a ← angles[k]?
          let v ← calculate_chebyshev M_PI fuel sc a
          pure (st.1 + v, st.2 + 1))
        num_angles st)
    iterations (0, 0)

/-- The `<stdlib.h>` and `<time.h>` items `main` uses: the two parsers, the clock resolution
and the two readings that the calls of `clock ()` return. -/
structure Env (R : Type) where
  atoi : String → Int
  atof : String → R
  CLOCKS_PER_SEC : R
  start : Int
  stop : Int

/-- What `main` writes to standard output: nothing, the benchmark report (the two numbers
passed to `printf`), or the single-shot value. -/
inductive Output (R : Type) where
  | nothing : Output R
  | report (total_time_sec ns_per_op : R) : Output R
  | value (v : R) : Output R

/-- A finished run of `main`: output, exit status, how often the evaluator was called, and
the final value of the sink `dummy` of the benchmark block (`none` when the block, and with
it the variable, is not entered). -/
structure Run (R : Type) where
  stdout : Output R
  status : Int
  calls : Nat
  sink : Option R

/-- Function `main (argc, argv)`, lines 79-148; `argc` is the length of `argv`. -/
def main (M_PI : R) (sin cos : R → R) (env : Env R) (fuel : Nat) (argv : List String) :
    Option (Run R) := do
  let argc := argv.length
  let iterations : Int ← if argc > 1 then argv[1]?.map env.atoi else some 0
  let sc := init_chebyshev M_PI sin cos 20
  if iterations > 0 then
    let angles := test_angles M_PI
    let num_angles := angles.length
    let (dummy, calls) ← benchmark_loop M_PI fuel sc angles num_angles iterations.toNat
    let total_time_sec : R := ((env.stop - env.start : Int) : R) / env.CLOCKS_PER_SEC
    let ns_per_op : R := (total_time_sec * 1e9) / ((iterations : R) * (num_angles : R))
    pure { stdout := Output.report total_time_sec ns_per_op, status := 0, calls := calls,
           sink := some dummy }
  else if argc > 2 then do
    let input ← argv[2]?.map env.atof
    let v ← calculate_chebyshev M_PI fuel sc input
    pure { stdout := Output.value v, status := 0, calls := 1, sink := none }
  else
    pure { stdout := Output.nothing, status := 0, calls := 0, sink := none }

/-- The error conditions of the specification's taxonomy. -/
inductive SpecError where
  | InvalidTermsCount
  | ArgumentParseError
  | MissingInputError
  deriving DecidableEq

/-- How a call ends: it returns a value or raises one of the named errors. -/
inductive Outcome (α : Type) where
  | returned (a : α) : Outcome α
  | raised (e : SpecError) : Outcome α

/-- A call of `init_chebyshev`: the C function has no error path, every call returns. -/
def init_chebyshev_call (M_PI : R) (sin cos : R → R) (N : Int) : Outcome (SineChebyshev R) :=
  Outcome.returned (init_chebyshev M_PI sin cos N)

end Defs

/-! ## Closed forms used in the accuracy proof -/

/-- Closed-form reduction in the words of the specification (§4.2 step 1 and §9): first
`m = x - 2π ⌊x / (2π)⌋` in `[0, 2π)`, then `m - 2π` if `m` exceeds `π`. It is compared with
`range_reduce`, the reduction of the source. -/
def range_reduce_closed_form {R : Type} [LinearOrderedField R] [FloorRing R] (M_PI : R)
    (x : R) : R :=
  let m := x - 2 * M_PI * ((⌊x / (2 * M_PI)⌋ : Int) : R)
  if m > M_PI then m - 2 * M_PI else m

/-- Indices read by the loop of `clenshaw_loop` started at `k`, in the order of the reads. -/
def clenshaw_loop_reads : Nat → List Nat
  | 0 => []
  | k + 1 => (k + 1) :: clenshaw_loop_reads k

/-- Indices of `coeffs` read by `clenshaw`: `k = terms - 1, …, 1` in the loop, then `0` in the
final expression. -/
def clenshaw_reads {R : Type} (sc : SineChebyshev R) : List Nat :=
  clenshaw_loop_reads (sc.terms - 1).toNat ++ [0]

end Sine

/-!
# The field extractors (`logic.c`, `logic_advanced.c`)

C strings are the lists of their bytes before the terminating NUL. A pointer into a string is
the offset from its first byte, `NULL` is `none`. A write past the end of a fixed `char`
array, or a read past the terminating NUL, makes the call return `none`. The parsers `atoi`
and `atof` are arguments, `int` counters are unbounded integers, and `while` loops that are
not a walk along the string carry a fuel argument.
-/

namespace CString

/-- Test whether the string `s` begins with the bytes of `n`. -/
def starts_with : List Char → List Char → Bool
  | _, [] => true
  | [], _ :: _ => false
  | c :: s, d :: n => c = d && starts_with s n

/-- Occurrence: the bytes of `n` stand in `h` from offset `i` on. -/
def occurs_at (h n : List Char) (i : Nat) : Bool :=
  decide (i ≤ h.length) && starts_with (h.drop i) n

/-- Library function `strstr (h, n)`: offset of the first occurrence of `n` in `h`. -/
def strstr : List Char → List Char → Option Nat
  | [], n => if starts_with [] n then some 0 else none
  | c :: h, n => if starts_with (c :: h) n then some 0 else (strstr h n).map (fun i => i + 1)

/-- Library function `strchr (s, c)` for a byte `c` other than NUL: offset of the first `c`. -/
def strchr : List Char → Char → Option Nat
  | [], _ => none
  | d :: s, c => if d = c then some 0 else (strchr s c).map (fun i => i + 1)

/-- Result of `sprintf (search, "\"%s\":", key)` into `char search[cap]`: the pattern
`"key":`, which needs `strlen (key) + 4` bytes with its terminator. -/
def search_pattern (cap : Nat) (key : List Char) : Option (List Char) :=
  if key.length + 4 ≤ cap then some ('"' :: (key ++ ['"', ':'])) else none

/-- Stand-in for `atoi`/`atof` on unsigned decimal numerals: the value of the leading digits. -/
def leading_digits : List Char → Nat → Nat
  | [], n => n
  | c :: cs, n => if c.isDigit then leading_digits cs (10 * n + (c.toNat - 48)) else n

end CString

namespace Logic

open CString

/-- Loop of `find_last`, lines 14-17 of `logic.c`: `h` is the offset where the next search
starts, `found` the last occurrence seen. -/
def find_last_loop (haystack needle : List Char) : Nat → Nat → Option Nat → Option (Option Nat)
  | 0, h, found =>
    if h ≤ haystack.length then
      match strstr (haystack.drop h) needle with
      | none => some found
      | some _ => none
    else none
  | fuel + 1, h, found =>
    if h ≤ haystack.length then
      match strstr (haystack.drop h) needle with
      | none => some found
      | some d => find_last_loop haystack needle fuel (h + d + 1) (some (h + d))
    else none

/-- Function `find_last (haystack, needle)`, lines 11-19 of `logic.c`. -/
def find_last (fuel : Nat) (haystack needle : List Char) : Option (Option Nat) :=
  find_last_loop haystack needle fuel 0 none

/-- Function `get_int_from_json (json, key)`, lines 21-29 of `logic.c`. -/
def get_int_from_json (atoi : List Char → Int) (fuel : Nat) (json key : List Char) :
    Option Int := do
  let search ← search_pattern 32 key
  let pos ← find_last fuel json search
  match pos with
  | none => pure 0
  | some p => pure (atoi (json.drop (p + search.length)))

end Logic

namespace LogicAdvanced

open CString

/-- Function `get_float_from_json (json, key)`, lines 8-19 of `logic_advanced.c`. -/
def get_float_from_json {R : Type} [Zero R] (atof : List Char → R) (json key : List Char) :
    Option R := do
  let search ← search_pattern 64 key
  match strstr json search with
  | some pos =>
    let pos := json.drop (pos + search.length)
    let pos := pos.dropWhile (fun c => c = ' ')
    pure (atof pos)
  | none => pure 0

/-- Function `get_string_from_json (json, key, buffer)`, lines 21-41 of `logic_advanced.c`,
for a `buffer` of `cap` bytes; the result is the string left in `buffer`. -/
def get_string_from_json (json key : List Char) (cap : Nat) : Option (List Char) := do
  let search ← search_pattern 64 key
  let fallback : Option (List Char) := if 4 ≤ cap then some ['a', 'd', 'd'] else none
  match strstr json search with
  | none => fallback
  | some pos =>
    let pos := json.drop (pos + search.length)
    match strchr pos '"' with
    | none => fallback
    | some start =>
      let start := pos.drop (start + 1)
      match strchr start '"' with
      | none => fallback
      | some len => if len + 1 ≤ cap then some (start.take len) else none

/-- Loop of `next_object`, lines 50-55: `p` is the offset of the byte under inspection. -/
def next_object_loop : List Char → Int → Nat → Option Nat
  | [], _, _ => none
  | c :: cs, balance, p =>
    let balance := if c = '{' then balance + 1 else balance
    let balance := if c = '}' then balance - 1 else balance
    if balance = 0 then some (p + 1) else next_object_loop cs balance (p + 1)

/-- Brace balance of a text: the number of `{` minus the number of `}`. -/
def brace_balance (s : List Char) : Int :=
  (s.count '{' : Int) - (s.count '}' : Int)

/-- Function `next_object (current)`, lines 44-57 of `logic_advanced.c`. -/
def next_object (current : List Char) : Option Nat :=
  match strchr current '{' with
  | none => none
  | some start => next_object_loop (current.drop start) 0 start

/-- The `if`/`else if` chain on `op`, lines 86-90 and 111-121: the result starts as `0.0`. -/
def apply_op {R : Type} [Field R] (sin cos : R → R) (op : List Char) (a b : R) : R :=
  if op = ['a', 'd', 'd'] then a + b
  else if op = ['m', 'u', 'l'] then a * b
  else if op = ['s', 'i', 'n'] then sin a
  else if op = ['c', 'o', 's'] then cos a
  else 0

/-- One piece of the standard output: a literal text or a number printed with `%f`. -/
inductive Tok (R : Type) where
  | text (s : String) : Tok R
  | num (x : R) : Tok R
  deriving DecidableEq

/-- Loop over the objects in batch mode, lines 71-98: `p` is the offset into the context
string, `first` the separator flag, `out` what has been printed so far. -/
def batch_loop {R : Type} [Field R] (sin cos : R → R) (atof : List Char → R)
    (context_str : List Char) : Nat → Nat → Bool → List (Tok R) → Option (List (Tok R))
  | fuel, p, first, out =>
    match strchr (context_str.drop p) '{' with
    | none => some out
    | some d =>
      let p := p + d
      match next_object (context_str.drop p) with
      | none => some out
      | some e =>
        let item_json := (context_str.drop p).take e
        match fuel with
        | 0 => none
        | fuel + 1 => do
          let op ← get_string_from_json item_json ['o', 'p'] 32
          let a ← get_float_from_json atof item_json ['a']
          let b ← get_float_from_json atof item_json ['b']
          let res := apply_op sin cos op a b
          let out := if first then out else out ++ [Tok.text ", "]
          let out := out ++ [Tok.num res]
          batch_loop sin cos atof context_str fuel (p + e) false out

/-- Function `main (argc, argv)` of `logic_advanced.c`, lines 59-125: the pieces written to
standard output and the exit status. -/
def main {R : Type} [Field R] (sin cos : R → R) (atof : List Char → R) (fuel : Nat)
    (argv : List (List Char)) : Option (List (Tok R) × Int) := do
  let context_str ← if argv.length > 1 then argv[1]? else some ['{', '}']
  if (strstr context_str "\"batch\": true".data).isSome
      || (strstr context_str "\"batch\":true".data).isSome then
    let out : List (Tok R) := [Tok.text "["]
    let out ← match strstr context_str "\"examples\":".data with
      | none => some out
      | some examples_pos =>
        match strchr (context_str.drop examples_pos) '[' with
        | none => some out
        | some d => batch_loop sin cos atof context_str fuel (examples_pos + d) true out
    pure (out ++ [Tok.text "]"], 0)
  else
    let op ← get_string_from_json context_str ['o', 'p'] 32
    let a ← get_float_from_json atof context_str ['a']
    let b ← get_float_from_json atof context_str ['b']
    let result := apply_op sin cos op a b
    pure ([Tok.num result], 0)

end LogicAdvanced

namespace Sine

/-! ## Loop lemmas -/

theorem whileLoop_done {σ : Type} (cond : σ → Bool) (body : σ → σ) (fuel : Nat) (s : σ)
    (h : cond s = false) : whileLoop cond body fuel s = some (s, 0) := by
  cases fuel <;> simp [whileLoop, h]

theorem whileLoop_once {σ : Type} (cond : σ → Bool) (body : σ → σ) (fuel : Nat) (s : σ)
    (h : cond s = true) (h' : cond (body s) = false) :
    whileLoop cond body (fuel + 1) s = some (body s, 1) := by
  simp [whileLoop, h, whileLoop_done cond body fuel (body s) h']

/-! ## Range reduction -/

theorem fmod_spec {R : Type} [LinearOrderedField R] [FloorRing R] (x P : R) (hP : 0 < P) :
    ∃ t : ℤ, fmod x P = x - (t : R) * P ∧ -P < fmod x P ∧ fmod x P < P := by
  unfold fmod
  by_cases h : 0 ≤ x / P
  · refine ⟨⌊x / P⌋, by simp [h], ?_, ?_⟩
    · simp only [h, if_true]
      have h1 : (⌊x / P⌋ : R) ≤ x / P := Int.floor_le _
      have h2 : (⌊x / P⌋ : R) * P ≤ x := by
        have := mul_le_mul_of_nonneg_right h1 hP.le
        rwa [div_mul_cancel₀ _ hP.ne'] at this
      linarith
    · simp only [h, if_true]
      have h1 : x / P < ⌊x / P⌋ + 1 := Int.lt_floor_add_one _
      have h2 : x < ((⌊x / P⌋ : R) + 1) * P := by
        have := mul_lt_mul_of_pos_right h1 hP
        rwa [div_mul_cancel₀ _ hP.ne'] at this
      linarith
  · refine ⟨⌈x / P⌉, by simp [h], ?_, ?_⟩
    · simp only [h, if_false]
      have h1 : (⌈x / P⌉ : R) < x / P + 1 := Int.ceil_lt_add_one _
      have h2 : (⌈x / P⌉ : R) * P < x + P := by
        have := mul_lt_mul_of_pos_right h1 hP
        rwa [add_mul, div_mul_cancel₀ _ hP.ne', one_mul] at this
      linarith
    · simp only [h, if_false]
      have h1 : x / P ≤ (⌈x / P⌉ : R) := Int.le_ceil _
      have h2 : x ≤ (⌈x / P⌉ : R) * P := by
        have := mul_le_mul_of_nonneg_right h1 hP.le
        rwa [div_mul_cancel₀ _ hP.ne'] at this
      linarith

theorem range_reduce_spec {R : Type} [LinearOrderedField R] [FloorRing R] (M_PI : R)
    (hpi : 0 < M_PI) (fuel : Nat) (hf : 1 ≤ fuel) (x : R) :
    ∃ r n, range_reduce M_PI fuel x = some (r, n) ∧ -M_PI < r ∧ r ≤ M_PI ∧
      (∃ k : ℤ, x - r = (k : R) * (2 * M_PI)) ∧ n ≤ 1 := by
  obtain ⟨fuel, rfl⟩ : ∃ f, fuel = f + 1 := ⟨fuel - 1, by omega⟩
  have h2 : (2.0 : R) = 2 := by norm_num
  obtain ⟨t, ht, hlo, hhi⟩ := fmod_spec x (2 * M_PI) (by linarith)
  unfold range_reduce
  rw [h2]
  generalize fmod x (2 * M_PI) = x0 at ht hlo hhi
  have hx0 : x = x0 + (t : R) * (2 * M_PI) := by linarith
  by_cases c1 : x0 > M_PI
  · -- shifted below zero, one iteration of the first loop brings it back
    have hc : (fun x : R => decide (x < 0)) (x0 - 2 * M_PI) = true := by
      simp; linarith
    have hc' : (fun x : R => decide (x < 0)) ((fun x => x + 2 * M_PI) (x0 - 2 * M_PI)) = false := by
      simp; linarith
    have hd : (fun x : R => decide (x ≥ 2 * M_PI)) (x0 - 2 * M_PI + 2 * M_PI) = false := by
      simp; linarith
    refine ⟨x0 - 2 * M_PI, 1, ?_, by linarith, by linarith, ⟨t + 1, by push_cast; linarith⟩, le_refl _⟩
    simp only [c1, if_true, Option.bind_eq_bind, Option.pure_def]
    rw [whileLoop_once (fun x : R => decide (x < 0)) (fun x => x + 2 * M_PI) fuel _ hc hc']
    simp only [Option.some_bind]
    rw [whileLoop_done (fun x : R => decide (x ≥ 2 * M_PI)) (fun x => x - 2 * M_PI) _ _ hd]
    simp only [sub_add_cancel, Option.some_bind, c1, if_true]
  · simp only [c1, if_false, Option.bind_eq_bind, Option.pure_def]
    by_cases c2 : x0 < 0
    · have hc : (fun x : R => decide (x < 0)) x0 = true := by simpa using c2
      have hc' : (fun x : R => decide (x < 0)) ((fun x => x + 2 * M_PI) x0) = false := by
        simp; linarith
      have hd : (fun x : R => decide (x ≥ 2 * M_PI)) (x0 + 2 * M_PI) = false := by
        simp; linarith
      rw [whileLoop_once (fun x : R => decide (x < 0)) (fun x => x + 2 * M_PI) fuel _ hc hc']
      simp only [Option.some_bind]
      rw [whileLoop_done (fun x : R => decide (x ≥ 2 * M_PI)) (fun x => x - 2 * M_PI) _ _ hd]
      by_cases c3 : x0 + 2 * M_PI > M_PI
      · refine ⟨x0, 1, by simp [c3], by linarith, by linarith, ⟨t, by linarith⟩, le_refl _⟩
      · refine ⟨x0 + 2 * M_PI, 1, by simp [c3], by linarith, by linarith,
          ⟨t - 1, by push_cast; linarith⟩, le_refl _⟩
    · have hc : (fun x : R => decide (x < 0)) x0 = false := by simpa using c2
      have hd : (fun x : R => decide (x ≥ 2 * M_PI)) x0 = false := by
        simp; linarith
      rw [whileLoop_done (fun x : R => decide (x < 0)) (fun x => x + 2 * M_PI) _ _ hc]
      simp only [Option.some_bind]
      rw [whileLoop_done (fun x : R => decide (x ≥ 2 * M_PI)) (fun x => x - 2 * M_PI) _ _ hd]
      refine ⟨x0, 0, by simp [c1], by linarith, by linarith, ⟨t, by linarith⟩, by omega⟩

theorem reduced_unique {R : Type} [LinearOrderedField R] (P r1 r2 : R) (hP : 0 < P) (m : ℤ)
    (h1 : -P < r1 ∧ r1 ≤ P) (h2 : -P < r2 ∧ r2 ≤ P) (h : r1 - r2 = (m : R) * (2 * P)) :
    r1 = r2 := by
  have hm : m = 0 := by
    by_contra hne
    rcases lt_or_gt_of_ne hne with hlt | hgt
    · have : (m : R) ≤ -1 := by exact_mod_cast Int.le_sub_one_of_lt hlt
      nlinarith
    · have : (1 : R) ≤ m := by exact_mod_cast Int.add_one_le_of_lt hgt
      nlinarith
  subst hm
  simp at h
  linarith

/-! ## Counted loops and the coefficient table -/

theorem forLoop_set_length {α : Type} (f : Nat → α) (m : Nat) (l : List α) :
    (forLoop (fun k a => a.set k (f k)) m l).length = l.length := by
  induction m with
  | zero => rfl
  | succ m ih => simp [forLoop, ih]

theorem forLoop_set_getElem? {α : Type} (f : Nat → α) (m : Nat) (l : List α) (i : Nat)
    (him : i < m) (hil : i < l.length) :
    (forLoop (fun k a => a.set k (f k)) m l)[i]? = some (f i) := by
  induction m with
  | zero => omega
  | succ m ih =>
    simp only [forLoop]
    by_cases h : m = i
    · subst h
      rw [List.getElem?_set_self]
      simp [forLoop_set_length, hil]
    · rw [List.getElem?_set_ne h]
      exact ih (by omega)

theorem forLoop_add_eq_sum {R : Type} [AddCommMonoid R] (g : Nat → R) (n : Nat) (z : R) :
    forLoop (fun j s => s + g j) n z = z + ∑ j ∈ Finset.range n, g j := by
  induction n with
  | zero => simp [forLoop]
  | succ n ih => simp [forLoop, ih, Finset.sum_range_succ, add_assoc]

theorem forLoop_congr {σ : Type} (f g : Nat → σ → σ) (n : Nat) (s : σ)
    (h : ∀ i, i < n → ∀ t, f i t = g i t) : forLoop f n s = forLoop g n s := by
  induction n with
  | zero => rfl
  | succ n ih =>
    simp only [forLoop]
    rw [ih (fun i hi t => h i (by omega) t), h n (by omega)]

theorem init_chebyshev_length {R : Type} [LinearOrderedField R] (M_PI : R) (sin cos : R → R)
    (N : Int) :
    (init_chebyshev M_PI sin cos N).coeffs.length = N.toNat := by
  simp [init_chebyshev, forLoop_set_length, malloc]

theorem init_chebyshev_coeff {R : Type} [LinearOrderedField R] (M_PI : R) (sin cos : R → R)
    (N : Int) (k : Nat)
    (hk : k < N.toNat) :
    (init_chebyshev M_PI sin cos N).coeffs[k]? =
      some ((2 / (N : R)) * ∑ j ∈ Finset.range N.toNat,
        sin (cos (M_PI * (2 * (j : R) + 1) / (2 * (N : R))) * M_PI) *
          cos ((k : R) * M_PI * (2 * (j : R) + 1) / (2 * (N : R)))) := by
  have h2 : (2.0 : R) = 2 := by norm_num
  have h1 : (1.0 : R) = 1 := by norm_num
  have h0 : (0.0 : R) = 0 := by norm_num
  simp only [init_chebyshev, h2, h1, h0]
  rw [forLoop_set_getElem? _ _ _ _ hk (by simp [malloc, hk])]
  congr 2
  rw [forLoop_congr _ (fun j s => s + sin (cos (M_PI * (2 * (j : R) + 1) / (2 * (N : R))) * M_PI) *
          cos ((k : R) * M_PI * (2 * (j : R) + 1) / (2 * (N : R)))) ]
  · rw [forLoop_add_eq_sum, zero_add]
  · intro j hj t
    have := forLoop_set_getElem? (fun j => cos (M_PI * (2 * (j : R) + 1) / (2 * (N : R))))
      N.toNat (malloc N.toNat) j hj (by simp [malloc, hj])
    simp only [List.getD_eq_getElem?_getD, this, Option.getD_some]

/-! ## Clenshaw recurrence -/

open Polynomial in
theorem clenshaw_loop_spec {R : Type} [LinearOrderedField R] (coeffs : List R) (u : R) :
    ∀ (k : Nat) (b1 b2 : R), k < coeffs.length ∨ k = 0 →
      ∃ B1 B2, clenshaw_loop coeffs (2 * u) k (b1, b2) = some (B1, B2) ∧
        u * B1 - B2 = ∑ i ∈ Finset.Icc 1 k, coeffs.getD i 0 * (Chebyshev.T R (i : ℤ)).eval u
          + b1 * (Chebyshev.T R ((k : ℤ) + 1)).eval u - b2 * (Chebyshev.T R (k : ℤ)).eval u := by
  intro k
  induction k with
  | zero =>
    intro b1 b2 _
    exact ⟨b1, b2, rfl, by simp; ring⟩
  | succ k ih =>
    intro b1 b2 hk
    have hk' : k + 1 < coeffs.length := by omega
    obtain ⟨B1, B2, hloop, hval⟩ := ih (coeffs[k + 1] + 2 * u * b1 - b2) b1 (Or.inl (by omega))
    refine ⟨B1, B2, ?_, ?_⟩
    · simp only [clenshaw_loop, List.getElem?_eq_getElem hk', Option.bind_eq_bind,
        Option.some_bind]
      exact hloop
    · rw [hval, Finset.sum_Icc_succ_top (by omega)]
      have hT : (Chebyshev.T R (((k + 1 : ℕ) : ℤ) + 1)).eval u
          = 2 * u * (Chebyshev.T R ((k : ℤ) + 1)).eval u - (Chebyshev.T R (k : ℤ)).eval u := by
        have := Chebyshev.T_add_two R (k : ℤ)
        push_cast
        rw [show (k : ℤ) + 1 + 1 = k + 2 by ring, this]
        simp
      rw [hT]
      simp only [List.getD_eq_getElem?_getD, List.getElem?_eq_getElem hk', Option.getD_some]
      push_cast
      ring

open Polynomial in
theorem clenshaw_spec {R : Type} [LinearOrderedField R] (sc : SineChebyshev R) (u : R)
    (hN : 1 ≤ sc.terms) (hlen : (sc.coeffs.length : ℤ) = sc.terms) :
    clenshaw sc u = some (0.5 * sc.coeffs.getD 0 0 +
      ∑ k ∈ Finset.Icc 1 (sc.terms.toNat - 1),
        sc.coeffs.getD k 0 * (Chebyshev.T R (k : ℤ)).eval u) := by
  have hlt : (sc.terms - 1).toNat < sc.coeffs.length := by omega
  have hpos : 0 < sc.coeffs.length := by omega
  obtain ⟨B1, B2, hloop, hval⟩ :=
    clenshaw_loop_spec sc.coeffs u (sc.terms - 1).toNat 0 0 (Or.inl hlt)
  have h2 : (2.0 : R) = 2 := by norm_num
  have h0 : (0.0 : R) = 0 := by norm_num
  have hidx : sc.terms.toNat - 1 = (sc.terms - 1).toNat := by omega
  simp only [clenshaw, h2, h0, hloop, Option.bind_eq_bind, Option.some_bind,
    List.getElem?_eq_getElem hpos, Option.pure_def, Option.some.injEq,
    List.getD_eq_getElem?_getD, Option.getD_some]
  simp only [List.getD_eq_getElem?_getD] at hval
  rw [hidx, add_sub_assoc, hval]
  ring

theorem calculate_chebyshev_spec {R : Type} [LinearOrderedField R] [FloorRing R] (M_PI : R)
    (fuel : Nat) (sc : SineChebyshev R) (x r : R) (n : Nat)
    (h : range_reduce M_PI fuel x = some (r, n)) :
    calculate_chebyshev M_PI fuel sc x = clenshaw sc (r / M_PI) := by
  simp [calculate_chebyshev, h]

/-! ## The driver `main` -/

theorem calculate_chebyshev_total {R : Type} [LinearOrderedField R] [FloorRing R] (M_PI : R)
    (hpi : 0 < M_PI) (fuel : Nat) (hfuel : 1 ≤ fuel) (sc : SineChebyshev R) (hN : 1 ≤ sc.terms)
    (hlen : (sc.coeffs.length : ℤ) = sc.terms) (x : R) :
    ∃ v, calculate_chebyshev M_PI fuel sc x = some v := by
  obtain ⟨r, n, hr, _⟩ := range_reduce_spec M_PI hpi fuel hfuel x
  exact ⟨_, by rw [calculate_chebyshev_spec M_PI fuel sc x r n hr, clenshaw_spec sc _ hN hlen]⟩

theorem forLoopM_acc {R : Type} [AddCommMonoid R] (body : Nat → R × Nat → Option (R × Nat))
    (g : Nat → R) (c n : Nat)
    (h : ∀ i, i < n → ∀ st, body i st = some (st.1 + g i, st.2 + c)) :
    ∀ st, forLoopM body n st = some (st.1 + ∑ i ∈ Finset.range n, g i, st.2 + n * c) := by
  induction n with
  | zero => intro st; simp [forLoopM]
  | succ n ih =>
    intro st
    simp only [forLoopM, ih (fun i hi => h i (by omega)) st, Option.some_bind,
      h n (by omega), Finset.sum_range_succ, add_assoc]
    congr 2
    ring

/-- The timed double loop for a well-formed table: every one of the
`iterations * angles.length` steps calls the evaluator on `angles[k]`, adds the value it returns
to the sink and counts the call. -/
theorem benchmark_loop_spec {R : Type} [LinearOrderedField R] [FloorRing R] (M_PI : R)
    (hpi : 0 < M_PI) (fuel : Nat) (hfuel : 1 ≤ fuel) (sc : SineChebyshev R) (hN : 1 ≤ sc.terms)
    (hlen : (sc.coeffs.length : ℤ) = sc.terms) (angles : List R) (iterations : Nat) :
    ∃ v : Nat → R,
      (∀ k, k < angles.length →
        calculate_chebyshev M_PI fuel sc (angles.getD k 0) = some (v k)) ∧
      benchmark_loop M_PI fuel sc angles angles.length iterations
        = some (∑ _i ∈ Finset.range iterations, ∑ k ∈ Finset.range angles.length, v k,
            iterations * angles.length) := by
  refine ⟨fun k => (calculate_chebyshev M_PI fuel sc (angles.getD k 0)).getD 0, ?_, ?_⟩
  · intro k _
    obtain ⟨w, hw⟩ := calculate_chebyshev_total M_PI hpi fuel hfuel sc hN hlen (angles.getD k 0)
    simp only [hw, Option.getD_some]
  · have inner := forLoopM_acc (fun k (st : R × Nat) => do
          let a ← angles[k]?
          let v ← calculate_chebyshev M_PI fuel sc a
          pure (st.1 + v, st.2 + 1))
        (fun k => (calculate_chebyshev M_PI fuel sc (angles.getD k 0)).getD 0) 1 angles.length
        (fun i hi st => by
          obtain ⟨w, hw⟩ :=
            calculate_chebyshev_total M_PI hpi fuel hfuel sc hN hlen (angles.getD i 0)
          have hg : angles.getD i 0 = angles[i] := by
            simp [List.getD_eq_getElem?_getD, List.getElem?_eq_getElem hi]
          have hw2 : calculate_chebyshev M_PI fuel sc angles[i] = some w := by rw [← hg, hw]
          simp only [hw, Option.getD_some, List.getElem?_eq_getElem hi, Option.bind_eq_bind,
            Option.some_bind, hw2, Option.pure_def])
    have outer := forLoopM_acc (fun _ (st : R × Nat) => forLoopM (fun k st => do
          let a ← angles[k]?
          let v ← calculate_chebyshev M_PI fuel sc a
          pure (st.1 + v, st.2 + 1)) angles.length st)
        (fun _ => ∑ k ∈ Finset.range angles.length,
          (calculate_chebyshev M_PI fuel sc (angles.getD k 0)).getD 0) angles.length iterations
        (fun _ _ st => by simpa using inner st) (0, 0)
    simpa [benchmark_loop] using outer

/-- With the one-term table whose polynomial is the constant `1`, every call of the evaluator
returns `1`, and the sink of the timed loop ends as the number of calls. -/
theorem benchmark_loop_unit_table {R : Type} [LinearOrderedField R] [FloorRing R] (M_PI : R)
    (hpi : 0 < M_PI) (fuel : Nat) (hfuel : 1 ≤ fuel) (angles : List R) (iterations : Nat) :
    benchmark_loop M_PI fuel ⟨1, [2]⟩ angles angles.length iterations
      = some (((iterations * angles.length : Nat) : R), iterations * angles.length) := by
  obtain ⟨v, hv, h⟩ := benchmark_loop_spec M_PI hpi fuel hfuel ⟨1, [2]⟩ (le_refl 1) rfl angles
    iterations
  have h1 : ∀ k, k < angles.length → v k = 1 := by
    intro k hk
    obtain ⟨r, n, hr, _⟩ := range_reduce_spec M_PI hpi fuel hfuel (angles.getD k 0)
    have := hv k hk
    rw [calculate_chebyshev_spec M_PI fuel _ _ r n hr] at this
    have hc : clenshaw (⟨1, [2]⟩ : SineChebyshev R) (r / M_PI) = some 1 := by
      simp [clenshaw, clenshaw_loop]
      norm_num
    rw [hc] at this
    exact (Option.some.inj this).symm
  rw [h]
  congr 2
  rw [Finset.sum_const, Finset.card_range, Finset.sum_congr rfl
    (fun k hk => h1 k (Finset.mem_range.mp hk)), Finset.sum_const, Finset.card_range]
  simp

section Interpolation

open Real

end Interpolation

/-! ## From the code to the series -/

/-- C3: for every real `x` the range-reduction steps of `calculate_chebyshev` (with `M_PI` any
positive real, in particular `π`, and fuel for at least one loop iteration) return a value `r`
with `-M_PI < r ≤ M_PI` such that `x - r` is an integer multiple of `2 * M_PI`; hence the
normalised argument `u = r / M_PI` lies in `[-1, 1]`. -/
theorem range_reduce_canonical (M_PI : ℝ) (hpi : 0 < M_PI) (fuel : ℕ) (hfuel : 1 ≤ fuel)
    (x : ℝ) :
    ∃ r n, range_reduce M_PI fuel x = some (r, n) ∧ -M_PI < r ∧ r ≤ M_PI ∧
      (∃ k : ℤ, x - r = (k : ℝ) * (2 * M_PI)) ∧ -1 ≤ r / M_PI ∧ r / M_PI ≤ 1 := by
  obtain ⟨r, n, hr, hlo, hhi, hk, _⟩ := range_reduce_spec M_PI hpi fuel hfuel x
  refine ⟨r, n, hr, hlo, hhi, hk, ?_, ?_⟩
  · rw [le_div_iff₀ hpi]; linarith
  · rw [div_le_iff₀ hpi]; linarith

theorem range_reduce_canonical_witness :
    (0 : ℝ) < Real.pi ∧ 1 ≤ 1 ∧
      ∃ r n, range_reduce Real.pi 1 (100 : ℝ) = some (r, n) ∧ -Real.pi < r ∧ r ≤ Real.pi ∧
        (∃ k : ℤ, (100 : ℝ) - r = (k : ℝ) * (2 * Real.pi)) ∧
        -1 ≤ r / Real.pi ∧ r / Real.pi ≤ 1 :=
  ⟨Real.pi_pos, le_refl 1, range_reduce_canonical Real.pi Real.pi_pos 1 (le_refl 1) 100⟩

/-- C4, as stated, fails at `x = π`: the reduction returns `π` itself, which is not in
`[-π, π)`. -/
theorem range_reduce_pi_not_half_open :
    ∃ r n, range_reduce Real.pi 1 Real.pi = some (r, n) ∧ ¬ (-Real.pi ≤ r ∧ r < Real.pi) := by
  have hpi := Real.pi_pos
  refine ⟨Real.pi, 0, ?_, fun h => lt_irrefl _ h.2⟩
  have h2 : (2.0 : ℝ) = 2 := by norm_num
  have hq : Real.pi / (2 * Real.pi) = 1 / 2 := by
    rw [div_eq_iff (by positivity)]; ring
  have hfl : ⌊(1 / 2 : ℝ)⌋ = 0 := by
    rw [Int.floor_eq_iff]; norm_num
  have hf : fmod Real.pi (2 * Real.pi) = Real.pi := by
    unfold fmod
    rw [hq, if_pos (by norm_num), hfl]
    simp
  have hc : (fun x : ℝ => decide (x < 0)) Real.pi = false := by simpa using hpi.le
  have hd : (fun x : ℝ => decide (x ≥ 2 * Real.pi)) Real.pi = false := by
    simp; linarith
  simp only [range_reduce, h2, hf, gt_iff_lt, lt_irrefl, if_false, Option.bind_eq_bind,
    whileLoop_done (fun x : ℝ => decide (x < 0)) (fun x => x + 2 * Real.pi) 1 _ hc,
    whileLoop_done (fun x : ℝ => decide (x ≥ 2 * Real.pi)) (fun x => x - 2 * Real.pi) 1 _ hd,
    Option.some_bind, Option.pure_def]

/-- C4, amended: for every real `x` the range reduction of `calculate_chebyshev` returns a
value in the half-open interval `(-M_PI, M_PI]`, open at the lower and closed at the upper end
(so `-M_PI ≤ r ≤ M_PI`, and the bound `-M_PI` is never attained). -/
theorem range_reduce_half_open (M_PI : ℝ) (hpi : 0 < M_PI) (fuel : ℕ) (hfuel : 1 ≤ fuel)
    (x : ℝ) :
    ∃ r n, range_reduce M_PI fuel x = some (r, n) ∧ -M_PI ≤ r ∧ r ≤ M_PI ∧ r ≠ -M_PI := by
  obtain ⟨r, n, hr, hlo, hhi, _, _⟩ := range_reduce_spec M_PI hpi fuel hfuel x
  exact ⟨r, n, hr, hlo.le, hhi, hlo.ne'⟩

theorem range_reduce_half_open_witness :
    (0 : ℝ) < Real.pi ∧ 1 ≤ 3 ∧
      ∃ r n, range_reduce Real.pi 3 (-5.5 : ℝ) = some (r, n) ∧ -Real.pi ≤ r ∧ r ≤ Real.pi ∧
        r ≠ -Real.pi :=
  ⟨Real.pi_pos, by decide, range_reduce_half_open Real.pi Real.pi_pos 3 (by decide) (-5.5)⟩

/-- C2: for every approximator with `terms ≥ 1` (and as many coefficients), every real `x`
and every integer `k`, `calculate_chebyshev` returns at `x + 2 * M_PI * k` and at `x`, and the
two values are equal over exact real arithmetic, hence within the tolerance `1e-9`. -/
theorem calculate_chebyshev_periodic (M_PI : ℝ) (hpi : 0 < M_PI) (fuel : ℕ) (hfuel : 1 ≤ fuel)
    (sc : SineChebyshev ℝ) (hN : 1 ≤ sc.terms) (hlen : (sc.coeffs.length : ℤ) = sc.terms)
    (x : ℝ) (k : ℤ) :
    ∃ v w, calculate_chebyshev M_PI fuel sc (x + 2 * M_PI * k) = some v ∧
      calculate_chebyshev M_PI fuel sc x = some w ∧ v = w ∧ |v - w| < 1e-9 := by
  obtain ⟨r1, n1, hr1, hlo1, hhi1, ⟨k1, hk1⟩, _⟩ :=
    range_reduce_spec M_PI hpi fuel hfuel (x + 2 * M_PI * k)
  obtain ⟨r2, n2, hr2, hlo2, hhi2, ⟨k2, hk2⟩, _⟩ := range_reduce_spec M_PI hpi fuel hfuel x
  have hr : r1 = r2 :=
    reduced_unique M_PI r1 r2 hpi (k + k2 - k1) ⟨hlo1, hhi1⟩ ⟨hlo2, hhi2⟩
      (by push_cast; linarith)
  subst hr
  obtain ⟨v, hv⟩ : ∃ v, clenshaw sc (r1 / M_PI) = some v := ⟨_, clenshaw_spec sc _ hN hlen⟩
  refine ⟨v, v, ?_, ?_, rfl, by norm_num⟩
  · rw [calculate_chebyshev_spec M_PI fuel sc _ r1 n1 hr1, hv]
  · rw [calculate_chebyshev_spec M_PI fuel sc _ r1 n2 hr2, hv]

theorem calculate_chebyshev_periodic_witness :
    (0 : ℝ) < Real.pi ∧ 1 ≤ 1 ∧ (1 : ℤ) ≤ 2 ∧ (([3, 4] : List ℝ).length : ℤ) = 2 ∧
      ∃ v w, calculate_chebyshev Real.pi 1 ⟨2, [3, 4]⟩ ((1 : ℝ) + 2 * Real.pi * (7 : ℤ)) = some v ∧
        calculate_chebyshev Real.pi 1 ⟨2, [3, 4]⟩ (1 : ℝ) = some w ∧ v = w ∧ |v - w| < 1e-9 :=
  ⟨Real.pi_pos, le_refl 1, by decide, by simp,
    calculate_chebyshev_periodic Real.pi Real.pi_pos 1 (le_refl 1) ⟨2, [3, 4]⟩ (by decide)
      (by simp) 1 7⟩

open Polynomial in
/-- C5: for every approximator with `terms = N ≥ 1` and coefficients `c[0..N-1]`, and every
real `x` with reduced argument `r` and `u = r / M_PI`, `calculate_chebyshev` returns the
truncated Chebyshev series `0.5 * c[0] + ∑ k = 1..N-1, c[k] * T_k(u)`, where `T_k` is the
Chebyshev polynomial of the first kind (Mathlib's `Polynomial.Chebyshev.T`). -/
theorem calculate_chebyshev_eq_series (M_PI : ℝ) (hpi : 0 < M_PI) (fuel : ℕ) (hfuel : 1 ≤ fuel)
    (sc : SineChebyshev ℝ) (hN : 1 ≤ sc.terms) (hlen : (sc.coeffs.length : ℤ) = sc.terms)
    (x : ℝ) :
    ∃ r n, range_reduce M_PI fuel x = some (r, n) ∧
      calculate_chebyshev M_PI fuel sc x = some (0.5 * sc.coeffs.getD 0 0 +
        ∑ k ∈ Finset.Icc 1 (sc.terms.toNat - 1),
          sc.coeffs.getD k 0 * (Chebyshev.T ℝ (k : ℤ)).eval (r / M_PI)) := by
  obtain ⟨r, n, hr, _⟩ := range_reduce_spec M_PI hpi fuel hfuel x
  refine ⟨r, n, hr, ?_⟩
  rw [calculate_chebyshev_spec M_PI fuel sc x r n hr]
  exact clenshaw_spec sc _ hN hlen

open Polynomial in
theorem calculate_chebyshev_eq_series_witness :
    (0 : ℝ) < Real.pi ∧ 1 ≤ 1 ∧ (1 : ℤ) ≤ 3 ∧ (([5, 6, 7] : List ℝ).length : ℤ) = 3 ∧
    ∃ r n, range_reduce Real.pi 1 (2 : ℝ) = some (r, n) ∧
      calculate_chebyshev Real.pi 1 ⟨3, [5, 6, 7]⟩ (2 : ℝ) =
        some (0.5 * ([5, 6, 7] : List ℝ).getD 0 0 +
          ∑ k ∈ Finset.Icc 1 ((3 : ℤ).toNat - 1),
            ([5, 6, 7] : List ℝ).getD k 0 * (Chebyshev.T ℝ (k : ℤ)).eval (r / Real.pi)) :=
  ⟨Real.pi_pos, le_refl 1, by decide, by simp,
    calculate_chebyshev_eq_series Real.pi Real.pi_pos 1 (le_refl 1) ⟨3, [5, 6, 7]⟩ (by decide)
      (by simp) 2⟩

/-- C6: for every `N ≥ 1` and every index `k` with `0 ≤ k < N` (which forces `N ≥ 1`), the
coefficient stored by `init_chebyshev` is
`coeff[k] = (2/N) * ∑ j = 0..N-1, sin (π * cos (π*(2j+1)/(2N))) * cos (k*π*(2j+1)/(2N))`. -/
theorem init_chebyshev_coeff_formula (N : ℕ) (k : ℕ) (hk : k < N) :
    (init_chebyshev Real.pi Real.sin Real.cos (N : ℤ)).coeffs[k]? =
      some ((2 / (N : ℝ)) * ∑ j ∈ Finset.range N,
        Real.sin (Real.pi * Real.cos (Real.pi * (2 * (j : ℝ) + 1) / (2 * (N : ℝ)))) *
          Real.cos ((k : ℝ) * Real.pi * (2 * (j : ℝ) + 1) / (2 * (N : ℝ)))) := by
  have := init_chebyshev_coeff Real.pi Real.sin Real.cos (N : ℤ) k (by simpa using hk)
  rw [this]
  simp only [Int.toNat_ofNat, Int.cast_natCast, mul_comm (Real.cos _) Real.pi]

theorem init_chebyshev_coeff_formula_witness :
    3 < 20 ∧
    (init_chebyshev Real.pi Real.sin Real.cos ((20 : ℕ) : ℤ)).coeffs[3]? =
      some ((2 / ((20 : ℕ) : ℝ)) * ∑ j ∈ Finset.range 20,
        Real.sin (Real.pi * Real.cos (Real.pi * (2 * (j : ℝ) + 1) / (2 * ((20 : ℕ) : ℝ)))) *
          Real.cos (((3 : ℕ) : ℝ) * Real.pi * (2 * (j : ℝ) + 1) / (2 * ((20 : ℕ) : ℝ)))) :=
  ⟨by decide, init_chebyshev_coeff_formula 20 3 (by decide)⟩

/-- C7: for every `N ≥ 1`, `init_chebyshev (sc, N)` leaves `terms = N` and a coefficient
sequence of exactly `N` elements, so `coeffs` has exactly `terms` elements and every index
`0..N-1` can be read. -/
theorem init_chebyshev_shape (N : ℤ) (hN : 1 ≤ N) :
    (init_chebyshev Real.pi Real.sin Real.cos N).terms = N ∧
      ((init_chebyshev Real.pi Real.sin Real.cos N).coeffs.length : ℤ) = N ∧
      ((init_chebyshev Real.pi Real.sin Real.cos N).coeffs.length : ℤ) =
        (init_chebyshev Real.pi Real.sin Real.cos N).terms ∧
      ∀ k : ℕ, (k : ℤ) < N → ∃ c, (init_chebyshev Real.pi Real.sin Real.cos N).coeffs[k]? = some c := by
  have hl := init_chebyshev_length Real.pi Real.sin Real.cos N
  have hl' : ((init_chebyshev Real.pi Real.sin Real.cos N).coeffs.length : ℤ) = N := by
    rw [hl]; omega
  refine ⟨rfl, hl', hl', fun k hk => ?_⟩
  have hk' : k < (init_chebyshev Real.pi Real.sin Real.cos N).coeffs.length := by omega
  exact ⟨_, List.getElem?_eq_getElem hk'⟩

theorem init_chebyshev_shape_witness :
    (1 : ℤ) ≤ 20 ∧ (init_chebyshev Real.pi Real.sin Real.cos 20).terms = 20 ∧
      ((init_chebyshev Real.pi Real.sin Real.cos 20).coeffs.length : ℤ) = 20 ∧
      ((init_chebyshev Real.pi Real.sin Real.cos 20).coeffs.length : ℤ) =
        (init_chebyshev Real.pi Real.sin Real.cos 20).terms ∧
      ∀ k : ℕ, (k : ℤ) < 20 → ∃ c, (init_chebyshev Real.pi Real.sin Real.cos 20).coeffs[k]? = some c :=
  ⟨by decide, init_chebyshev_shape 20 (by decide)⟩

/-- C8, as stated, fails at `N = 0` and at `N = -1`: the call returns a degenerate
approximator with no coefficient, it does not raise `InvalidTermsCount`. -/
theorem init_chebyshev_nonpositive_returns :
    init_chebyshev_call Real.pi Real.sin Real.cos 0 = Outcome.returned ⟨0, []⟩ ∧
    init_chebyshev_call Real.pi Real.sin Real.cos (-1) = Outcome.returned ⟨-1, []⟩ ∧
    init_chebyshev_call Real.pi Real.sin Real.cos 0 ≠ Outcome.raised SpecError.InvalidTermsCount ∧
    init_chebyshev_call Real.pi Real.sin Real.cos (-1) ≠
      Outcome.raised SpecError.InvalidTermsCount := by
  refine ⟨rfl, rfl, ?_, ?_⟩ <;> simp [init_chebyshev_call]

/-- C8, amended: invoking `init_chebyshev` with any `N ≤ 0` raises no error; the call returns
the approximator with `terms = N` and an empty coefficient table. -/
theorem init_chebyshev_nonpositive (N : ℤ) (hN : N ≤ 0) :
    init_chebyshev_call Real.pi Real.sin Real.cos N = Outcome.returned ⟨N, []⟩ := by
  have h : N.toNat = 0 := by omega
  simp [init_chebyshev_call, init_chebyshev, h, forLoop, malloc]

theorem init_chebyshev_nonpositive_witness :
    (-3 : ℤ) ≤ 0 ∧
      init_chebyshev_call Real.pi Real.sin Real.cos (-3) = Outcome.returned ⟨-3, []⟩ :=
  ⟨by decide, init_chebyshev_nonpositive (-3) (by decide)⟩

/-! ## Claims about `main` -/

theorem range_reduce_closed_form_spec {R : Type} [LinearOrderedField R] [FloorRing R] (M_PI : R)
    (hpi : 0 < M_PI) (x : R) :
    -M_PI < range_reduce_closed_form M_PI x ∧ range_reduce_closed_form M_PI x ≤ M_PI ∧
      ∃ k : ℤ, x - range_reduce_closed_form M_PI x = (k : R) * (2 * M_PI) := by
  have h2 : (0 : R) < 2 * M_PI := by linarith
  have h1 : (⌊x / (2 * M_PI)⌋ : R) * (2 * M_PI) ≤ x := by
    have := mul_le_mul_of_nonneg_right (Int.floor_le (x / (2 * M_PI))) h2.le
    rwa [div_mul_cancel₀ _ h2.ne'] at this
  have h3 : x < ((⌊x / (2 * M_PI)⌋ : R) + 1) * (2 * M_PI) := by
    have := mul_lt_mul_of_pos_right (Int.lt_floor_add_one (x / (2 * M_PI))) h2
    rwa [div_mul_cancel₀ _ h2.ne'] at this
  unfold range_reduce_closed_form
  by_cases c : x - 2 * M_PI * (⌊x / (2 * M_PI)⌋ : R) > M_PI
  · simp only [c, if_true]
    exact ⟨by linarith, by linarith, ⌊x / (2 * M_PI)⌋ + 1, by push_cast; ring⟩
  · simp only [c, if_false]
    exact ⟨by linarith, by linarith, ⌊x / (2 * M_PI)⌋, by ring⟩

/-- C15: for every real `x` (any positive `M_PI`, in particular `π`; fuel for one loop
iteration) the range reduction of `calculate_chebyshev`, with `fmod` and the two `while`
loops, returns the same value as the closed form `m = x - 2π ⌊x / (2π)⌋` followed by
`if m > π then m - 2π`; so the evaluator's output is the Clenshaw value at the closed-form
reduction. -/
theorem range_reduce_eq_closed_form (M_PI : ℝ) (hpi : 0 < M_PI) (fuel : ℕ) (hfuel : 1 ≤ fuel)
    (sc : SineChebyshev ℝ) (x : ℝ) :
    (∃ n, range_reduce M_PI fuel x = some (range_reduce_closed_form M_PI x, n)) ∧
      calculate_chebyshev M_PI fuel sc x
        = clenshaw sc (range_reduce_closed_form M_PI x / M_PI) := by
  obtain ⟨r, n, hr, hlo, hhi, ⟨k, hk⟩, _⟩ := range_reduce_spec M_PI hpi fuel hfuel x
  obtain ⟨clo, chi, k', hk'⟩ := range_reduce_closed_form_spec M_PI hpi x
  have heq : r = range_reduce_closed_form M_PI x :=
    reduced_unique M_PI r _ hpi (k' - k) ⟨hlo, hhi⟩ ⟨clo, chi⟩ (by push_cast; linarith)
  rw [← heq]
  exact ⟨⟨n, hr⟩, calculate_chebyshev_spec M_PI fuel sc x r n hr⟩

theorem range_reduce_eq_closed_form_witness :
    (0 : ℝ) < Real.pi ∧ 1 ≤ 1 ∧
      (∃ n, range_reduce Real.pi 1 (100 : ℝ)
        = some (range_reduce_closed_form Real.pi (100 : ℝ), n)) ∧
      calculate_chebyshev Real.pi 1 (init_chebyshev Real.pi Real.sin Real.cos 20) (100 : ℝ)
        = clenshaw (init_chebyshev Real.pi Real.sin Real.cos 20)
            (range_reduce_closed_form Real.pi (100 : ℝ) / Real.pi) :=
  ⟨Real.pi_pos, le_refl 1,
    range_reduce_eq_closed_form Real.pi Real.pi_pos 1 (le_refl 1)
      (init_chebyshev Real.pi Real.sin Real.cos 20) 100⟩

/-- In exact arithmetic, for every real `x` the value that enters the two `while` loops (after
`fmod` and the conditional shift) lies in `(-2 M_PI, 2 M_PI)`, the loops terminate, and
together they execute at most one iteration. -/
theorem range_reduce_exact_loops_bounded (M_PI : ℝ) (hpi : 0 < M_PI) (fuel : ℕ) (hfuel : 1 ≤ fuel)
    (x : ℝ) :
    (-(2 * M_PI) < (if fmod x (2 * M_PI) > M_PI then fmod x (2 * M_PI) - 2 * M_PI
        else fmod x (2 * M_PI)) ∧
      (if fmod x (2 * M_PI) > M_PI then fmod x (2 * M_PI) - 2 * M_PI
        else fmod x (2 * M_PI)) < 2 * M_PI) ∧
    (∃ r n, range_reduce M_PI 1 x = some (r, n) ∧ n ≤ 1) ∧
    ∃ r n, range_reduce M_PI fuel x = some (r, n) ∧ n ≤ 1 := by
  obtain ⟨t, _, hlo, hhi⟩ := fmod_spec x (2 * M_PI) (by linarith)
  refine ⟨?_, ?_, ?_⟩
  · split_ifs with c
    · exact ⟨by linarith, by linarith⟩
    · exact ⟨hlo, hhi⟩
  · obtain ⟨r, n, hr, _, _, _, hn⟩ := range_reduce_spec M_PI hpi 1 (le_refl 1) x
    exact ⟨r, n, hr, hn⟩
  · obtain ⟨r, n, hr, _, _, _, hn⟩ := range_reduce_spec M_PI hpi fuel hfuel x
    exact ⟨r, n, hr, hn⟩

/-! ## Range reduction on doubles -/

theorem two_zpow_pos {R : Type} [LinearOrderedField R] (k : ℤ) : (0 : R) < 2 ^ k :=
  zpow_pos (by norm_num) k

theorem two_zpow_add_nat {R : Type} [LinearOrderedField R] (k : ℤ) (n : ℕ) :
    (2 : R) ^ (k + n) = ((2 ^ n : ℤ) : R) * 2 ^ k := by
  rw [zpow_add₀ (by norm_num : (2 : R) ≠ 0), zpow_natCast, mul_comm]
  push_cast
  rfl

section Rounding
variable {R : Type} [LinearOrderedField R] [FloorRing R]

theorem round_ties_even_intCast (m : ℤ) : round_ties_even (m : R) = m := by
  simp [round_ties_even]

theorem floor_le_round_ties_even (y : R) : ⌊y⌋ ≤ round_ties_even y := by
  unfold round_ties_even
  split_ifs <;> omega

theorem round_ties_even_le_floor_add_one (y : R) : round_ties_even y ≤ ⌊y⌋ + 1 := by
  unfold round_ties_even
  split_ifs <;> omega

theorem round_ties_even_mono {a b : R} (h : a ≤ b) : round_ties_even a ≤ round_ties_even b := by
  have hf : ⌊a⌋ ≤ ⌊b⌋ := Int.floor_mono h
  rcases hf.lt_or_eq with hlt | heq
  · calc round_ties_even a ≤ ⌊a⌋ + 1 := round_ties_even_le_floor_add_one a
      _ ≤ ⌊b⌋ := hlt
      _ ≤ round_ties_even b := floor_le_round_ties_even b
  · unfold round_ties_even
    rw [heq]
    have hab : a - ⌊b⌋ ≤ b - ⌊b⌋ := by linarith
    split_ifs <;> first | omega | (exfalso; linarith)

theorem round_ties_even_neg (y : R) : round_ties_even (-y) = -round_ties_even y := by
  by_cases hy : (⌊y⌋ : R) = y
  · have : -y = ((-⌊y⌋ : ℤ) : R) := by push_cast; rw [hy]
    rw [this, round_ties_even_intCast]
    conv_rhs => rw [← hy, round_ties_even_intCast]
  · have hlt : (⌊y⌋ : R) < y := lt_of_le_of_ne (Int.floor_le y) hy
    have hfl : ⌊-y⌋ = -⌊y⌋ - 1 := by
      rw [Int.floor_eq_iff]
      have := Int.lt_floor_add_one y
      push_cast
      constructor <;> linarith
    unfold round_ties_even
    rw [hfl]
    push_cast
    split_ifs <;> first | omega | (exfalso; linarith)

theorem round_binary64_zero : round_binary64 (0 : R) = 0 := by
  simp [round_binary64]

theorem round_binary64_neg (x : R) : round_binary64 (-x) = -round_binary64 x := by
  unfold round_binary64
  by_cases hx : x = 0
  · simp [hx]
  · rw [if_neg hx, if_neg (neg_ne_zero.mpr hx), abs_neg, neg_div, round_ties_even_neg]
    push_cast
    ring

theorem log_two_bounds {x : R} (hx : 0 < x) :
    (2 : R) ^ Int.log 2 x ≤ x ∧ x < 2 ^ (Int.log 2 x + 1) := by
  have h1 := Int.zpow_log_le_self (b := 2) (by norm_num) hx
  have h2 := Int.lt_zpow_succ_log_self (b := 2) (by norm_num) x
  simpa using And.intro h1 h2

theorem round_binary64_pos_bounds {x : R} (hx : 0 < x) :
    (2 : R) ^ Int.log 2 x ≤ round_binary64 x ∧ round_binary64 x ≤ 2 ^ (Int.log 2 x + 1) := by
  obtain ⟨h1, h2⟩ := log_two_bounds hx
  unfold round_binary64
  rw [if_neg hx.ne', abs_of_pos hx]
  set e := Int.log 2 x
  have hu : (0 : R) < 2 ^ (e - 52) := two_zpow_pos _
  have e1 : (2 : R) ^ e = ((2 ^ 52 : ℤ) : R) * 2 ^ (e - 52) := by
    have := two_zpow_add_nat (R := R) (e - 52) 52
    rwa [show e - 52 + ((52 : ℕ) : ℤ) = e by push_cast; ring] at this
  have e2 : (2 : R) ^ (e + 1) = ((2 ^ 53 : ℤ) : R) * 2 ^ (e - 52) := by
    have := two_zpow_add_nat (R := R) (e - 52) 53
    rwa [show e - 52 + ((53 : ℕ) : ℤ) = e + 1 by push_cast; ring] at this
  have l1 : ((2 ^ 52 : ℤ) : R) ≤ x / 2 ^ (e - 52) := by
    rw [le_div_iff₀ hu, ← e1]; exact h1
  have l2 : x / 2 ^ (e - 52) ≤ ((2 ^ 53 : ℤ) : R) := by
    rw [div_le_iff₀ hu, ← e2]; exact h2.le
  have r1 := round_ties_even_mono l1
  have r2 := round_ties_even_mono l2
  rw [round_ties_even_intCast] at r1 r2
  constructor
  · rw [e1]
    exact mul_le_mul_of_nonneg_right (by exact_mod_cast r1) hu.le
  · rw [e2]
    exact mul_le_mul_of_nonneg_right (by exact_mod_cast r2) hu.le

theorem round_binary64_pos {x : R} (hx : 0 < x) : 0 < round_binary64 x :=
  lt_of_lt_of_le (two_zpow_pos _) (round_binary64_pos_bounds hx).1

theorem round_binary64_mono_pos {x y : R} (hx : 0 < x) (h : x ≤ y) :
    round_binary64 x ≤ round_binary64 y := by
  have hy : 0 < y := lt_of_lt_of_le hx h
  have hlog : Int.log 2 x ≤ Int.log 2 y := Int.log_mono_right hx h
  rcases hlog.lt_or_eq with hlt | heq
  · calc round_binary64 x ≤ 2 ^ (Int.log 2 x + 1) := (round_binary64_pos_bounds hx).2
      _ ≤ 2 ^ Int.log 2 y := zpow_le_zpow_right₀ (by norm_num) hlt
      _ ≤ round_binary64 y := (round_binary64_pos_bounds hy).1
  · unfold round_binary64
    rw [if_neg hx.ne', if_neg hy.ne', abs_of_pos hx, abs_of_pos hy, heq]
    have hu : (0 : R) < 2 ^ (Int.log 2 y - 52) := two_zpow_pos _
    apply mul_le_mul_of_nonneg_right _ hu.le
    have : x / 2 ^ (Int.log 2 y - 52) ≤ y / 2 ^ (Int.log 2 y - 52) :=
      div_le_div_of_nonneg_right h hu.le
    exact_mod_cast round_ties_even_mono this

theorem round_binary64_mono {x y : R} (h : x ≤ y) : round_binary64 x ≤ round_binary64 y := by
  rcases lt_trichotomy 0 x with hx | hx | hx
  · exact round_binary64_mono_pos hx h
  · subst hx
    rw [round_binary64_zero]
    rcases h.lt_or_eq with hy | hy
    · exact (round_binary64_pos hy).le
    · rw [← hy, round_binary64_zero]
  · have hnx : round_binary64 x < 0 := by
      have := round_binary64_pos (neg_pos.mpr hx)
      rw [round_binary64_neg] at this
      linarith
    rcases lt_trichotomy 0 y with hy | hy | hy
    · exact (hnx.trans (round_binary64_pos hy)).le
    · rw [← hy, round_binary64_zero]; exact hnx.le
    · have := round_binary64_mono_pos (neg_pos.mpr hy) (neg_le_neg h)
      rw [round_binary64_neg, round_binary64_neg] at this
      linarith

/-- Numbers `m * 2 ^ k` with a 53-bit significand `m` are binary64 numbers. -/
theorem round_binary64_of_significand (m k : ℤ) (h1 : 2 ^ 52 ≤ m) (h2 : m < 2 ^ 53) :
    round_binary64 ((m : R) * 2 ^ k) = (m : R) * 2 ^ k := by
  have hk : (0 : R) < 2 ^ k := two_zpow_pos k
  have hm : (0 : R) < m := by
    have : (0 : ℤ) < m := lt_of_lt_of_le (by norm_num) h1
    exact_mod_cast this
  have hx : (0 : R) < (m : R) * 2 ^ k := mul_pos hm hk
  have hlog : Int.log 2 ((m : R) * 2 ^ k) = k + 52 := by
    apply le_antisymm
    · have : Int.log 2 ((m : R) * 2 ^ k) < k + 53 := by
        rw [← Int.lt_zpow_iff_log_lt (by norm_num) hx, Nat.cast_ofNat,
          show k + 53 = k + ((53 : ℕ) : ℤ) by push_cast; ring, two_zpow_add_nat]
        exact mul_lt_mul_of_pos_right (by exact_mod_cast h2) hk
      omega
    · rw [← Int.zpow_le_iff_le_log (by norm_num) hx, Nat.cast_ofNat,
        show k + 52 = k + ((52 : ℕ) : ℤ) by push_cast; ring, two_zpow_add_nat]
      exact mul_le_mul_of_nonneg_right (by exact_mod_cast h1) hk.le
  unfold round_binary64
  rw [if_neg hx.ne', abs_of_pos hx, hlog, add_sub_cancel_right, mul_div_assoc,
    div_self hk.ne', mul_one, round_ties_even_intCast]

theorem round_ties_even_eq_of_near (y : R) (m : ℤ) (h1 : (m : R) - 1 / 2 < y)
    (h2 : y < (m : R) + 1 / 2) : round_ties_even y = m := by
  rcases le_or_lt (m : R) y with h | h
  · have hf : ⌊y⌋ = m := by
      rw [Int.floor_eq_iff]
      constructor <;> linarith
    unfold round_ties_even
    rw [hf, if_pos (by linarith)]
  · have hf : ⌊y⌋ = m - 1 := by
      rw [Int.floor_eq_iff]
      push_cast
      constructor <;> linarith
    unfold round_ties_even
    rw [hf, if_neg (by push_cast; linarith), if_pos (by push_cast; linarith)]
    ring

theorem log_two_eq {x : R} (hx : 0 < x) (e : ℤ) (h1 : (2 : R) ^ e ≤ x)
    (h2 : x < 2 ^ (e + 1)) : Int.log 2 x = e := by
  apply le_antisymm
  · have : Int.log 2 x < e + 1 := by
      rw [← Int.lt_zpow_iff_log_lt (by norm_num) hx, Nat.cast_ofNat]
      exact h2
    omega
  · rw [← Int.zpow_le_iff_le_log (by norm_num) hx, Nat.cast_ofNat]
    exact h1

/-- Evaluation of the rounding at a positive `x` with `2 ^ e ≤ x < 2 ^ (e + 1)`: the result
is `m * 2 ^ (e - 52)` for the integer `m` within one half of `x / 2 ^ (e - 52)`. -/
theorem round_binary64_eq {x : R} (hx : 0 < x) (e m : ℤ) (h1 : (2 : R) ^ e ≤ x)
    (h2 : x < 2 ^ (e + 1)) (h3 : (m : R) - 1 / 2 < x / 2 ^ (e - 52))
    (h4 : x / 2 ^ (e - 52) < (m : R) + 1 / 2) :
    round_binary64 x = (m : R) * 2 ^ (e - 52) := by
  unfold round_binary64
  rw [if_neg hx.ne', abs_of_pos hx, log_two_eq hx e h1 h2,
    round_ties_even_eq_of_near _ m h3 h4]

theorem round_binary64_two_mul (x : R) : round_binary64 (2 * x) = 2 * round_binary64 x := by
  have pos : ∀ y : R, 0 < y → round_binary64 (2 * y) = 2 * round_binary64 y := by
    intro y hy
    obtain ⟨h1, h2⟩ := log_two_bounds hy
    have h2y : (0 : R) < 2 * y := by linarith
    have hlog : Int.log 2 (2 * y) = Int.log 2 y + 1 := by
      apply log_two_eq h2y
      · rw [zpow_add_one₀ (by norm_num : (2 : R) ≠ 0)]
        linarith
      · rw [zpow_add_one₀ (by norm_num : (2 : R) ≠ 0)]
        linarith
    unfold round_binary64
    rw [if_neg hy.ne', if_neg h2y.ne', abs_of_pos hy, abs_of_pos h2y, hlog,
      show Int.log 2 y + 1 - 52 = Int.log 2 y - 52 + 1 by ring,
      zpow_add_one₀ (by norm_num : (2 : R) ≠ 0)]
    have hu : (0 : R) < 2 ^ (Int.log 2 y - 52) := two_zpow_pos _
    rw [show 2 * y / (2 ^ (Int.log 2 y - 52) * 2) = y / 2 ^ (Int.log 2 y - 52) by
      field_simp; ring]
    ring
  rcases lt_trichotomy 0 x with hx | hx | hx
  · exact pos x hx
  · subst hx
    simp [round_binary64_zero]
  · have := pos (-x) (neg_pos.mpr hx)
    rw [mul_neg, round_binary64_neg, round_binary64_neg] at this
    linarith

theorem fmod_of_abs_lt (x P : R) (hP : 0 < P) (h1 : -P < x) (h2 : x < P) : fmod x P = x := by
  unfold fmod
  by_cases h : 0 ≤ x / P
  · have hf : ⌊x / P⌋ = 0 := by
      rw [Int.floor_eq_iff]
      refine ⟨by simpa using h, ?_⟩
      rw [div_lt_iff₀ hP]
      simpa using h2
    simp [h, hf]
  · have hc : ⌈x / P⌉ = 0 := by
      rw [Int.ceil_eq_iff]
      push_neg at h
      refine ⟨?_, by simpa using h.le⟩
      rw [lt_div_iff₀ hP]
      simpa using h1
    simp [h, hc]

/-- The range reduction under any rounding of sums and differences that is monotone and
leaves `0`, `2 * M_PI` and `-M_PI` unchanged: the value that enters the loops lies in
`(-2 M_PI, 2 M_PI)`, the run returns with fuel for one iteration, and each loop executes at
most one iteration. -/
theorem range_reduce_rounded_spec (rnd : R → R) (hmono : ∀ a b, a ≤ b → rnd a ≤ rnd b)
    (h0 : rnd 0 = 0) (M_PI : R) (hpi : 0 < M_PI) (h2pi : rnd (2 * M_PI) = 2 * M_PI)
    (hnpi : rnd (-M_PI) = -M_PI) (fuel : Nat) (hf : 1 ≤ fuel) (x : R) :
    (-(2 * M_PI) < (if fmod x (2 * M_PI) > M_PI then rnd (fmod x (2 * M_PI) - 2 * M_PI)
        else fmod x (2 * M_PI)) ∧
      (if fmod x (2 * M_PI) > M_PI then rnd (fmod x (2 * M_PI) - 2 * M_PI)
        else fmod x (2 * M_PI)) < 2 * M_PI) ∧
    ∃ r n1 n2, range_reduce_rounded rnd M_PI fuel x = some (r, n1, n2) ∧ n1 ≤ 1 ∧ n2 ≤ 1 := by
  obtain ⟨fuel, rfl⟩ : ∃ f, fuel = f + 1 := ⟨fuel - 1, by omega⟩
  have h2 : (2.0 : R) = 2 := by norm_num
  obtain ⟨t, -, hlo, hhi⟩ := fmod_spec x (2 * M_PI) (by linarith)
  unfold range_reduce_rounded
  rw [h2]
  simp only [Option.bind_eq_bind, Option.pure_def]
  generalize fmod x (2 * M_PI) = x0 at hlo hhi
  have hx1 : -(2 * M_PI) < (if x0 > M_PI then rnd (x0 - 2 * M_PI) else x0) ∧
      (if x0 > M_PI then rnd (x0 - 2 * M_PI) else x0) < 2 * M_PI := by
    by_cases c1 : x0 > M_PI
    · rw [if_pos c1]
      have l1 : rnd (-M_PI) ≤ rnd (x0 - 2 * M_PI) := hmono _ _ (by linarith)
      have l2 : rnd (x0 - 2 * M_PI) ≤ rnd 0 := hmono _ _ (by linarith)
      rw [hnpi] at l1
      rw [h0] at l2
      constructor <;> linarith
    · rw [if_neg c1]
      exact ⟨hlo, hhi⟩
  generalize (if x0 > M_PI then rnd (x0 - 2 * M_PI) else x0) = x1 at hx1 ⊢
  refine ⟨hx1, ?_⟩
  obtain ⟨hx1lo, hx1hi⟩ := hx1
  -- first loop
  have loop1 : ∃ x2 n1, whileLoop (fun x : R => decide (x < 0)) (fun x => rnd (x + 2 * M_PI))
      (fuel + 1) x1 = some (x2, n1) ∧ n1 ≤ 1 ∧ 0 ≤ x2 ∧ x2 ≤ 2 * M_PI := by
    by_cases c : x1 < 0
    · have l1 : rnd 0 ≤ rnd (x1 + 2 * M_PI) := hmono _ _ (by linarith)
      have l2 : rnd (x1 + 2 * M_PI) ≤ rnd (2 * M_PI) := hmono _ _ (by linarith)
      rw [h0] at l1
      rw [h2pi] at l2
      refine ⟨rnd (x1 + 2 * M_PI), 1, ?_, le_refl _, l1, l2⟩
      exact whileLoop_once (fun x : R => decide (x < 0)) (fun x => rnd (x + 2 * M_PI)) fuel x1
        (by simpa using c) (by simpa using l1)
    · refine ⟨x1, 0, ?_, by omega, not_lt.mp c, hx1hi.le⟩
      exact whileLoop_done (fun x : R => decide (x < 0)) (fun x => rnd (x + 2 * M_PI)) _ x1
        (by simpa using c)
  obtain ⟨x2, n1, hl1, hn1, hx2lo, hx2hi⟩ := loop1
  -- second loop
  have loop2 : ∃ x3 n2, whileLoop (fun x : R => decide (x ≥ 2 * M_PI))
      (fun x => rnd (x - 2 * M_PI)) (fuel + 1) x2 = some (x3, n2) ∧ n2 ≤ 1 := by
    by_cases c : x2 ≥ 2 * M_PI
    · have hx2 : x2 = 2 * M_PI := le_antisymm hx2hi c
      refine ⟨rnd (x2 - 2 * M_PI), 1, ?_, le_refl _⟩
      apply whileLoop_once (fun x : R => decide (x ≥ 2 * M_PI)) (fun x => rnd (x - 2 * M_PI))
        fuel x2 (by simpa using c)
      rw [hx2, sub_self, h0]
      simpa using hpi
    · refine ⟨x2, 0, ?_, by omega⟩
      exact whileLoop_done (fun x : R => decide (x ≥ 2 * M_PI)) (fun x => rnd (x - 2 * M_PI))
        _ x2 (by simpa using c)
  obtain ⟨x3, n2, hl2, hn2⟩ := loop2
  refine ⟨if x3 > M_PI then rnd (x3 - 2 * M_PI) else x3, n1, n2, ?_, hn1, hn2⟩
  simp only [hl1, hl2, Option.some_bind]

end Rounding

section Binary64

theorem M_PI_binary64_eq : (M_PI_binary64 : ℝ) = 7074237752028440 * 2 ^ (-51 : ℤ) := by
  unfold M_PI_binary64
  rw [round_binary64_eq (by norm_num) 1 7074237752028440 (by norm_num) (by norm_num)
    (by norm_num) (by norm_num)]
  norm_num

theorem neg_1e20_binary64_eq :
    round_binary64 (-1e-20 : ℝ) = -(6646139978924579 * 2 ^ (-119 : ℤ)) := by
  rw [show (-1e-20 : ℝ) = -(1e-20) by norm_num, round_binary64_neg,
    round_binary64_eq (by norm_num) (-67) 6646139978924579 (by norm_num) (by norm_num)
    (by norm_num) (by norm_num)]
  norm_num

theorem M_PI_binary64_pos : (0 : ℝ) < M_PI_binary64 := by
  rw [M_PI_binary64_eq]
  norm_num

theorem round_binary64_M_PI : round_binary64 (M_PI_binary64 : ℝ) = M_PI_binary64 := by
  rw [M_PI_binary64_eq]
  exact round_binary64_of_significand 7074237752028440 (-51) (by norm_num) (by norm_num)

/-- The doubling `2.0 * M_PI` is exact: its value is a `double`. -/
theorem round_binary64_two_M_PI :
    round_binary64 (2 * M_PI_binary64 : ℝ) = 2 * M_PI_binary64 := by
  rw [round_binary64_two_mul, round_binary64_M_PI]

/-- At the double `-1e-20` the sum `x + 2 * M_PI` rounds to `2 * M_PI`. -/
theorem round_binary64_absorb :
    round_binary64 (round_binary64 (-1e-20 : ℝ) + 2 * M_PI_binary64) = 2 * M_PI_binary64 := by
  rw [neg_1e20_binary64_eq, M_PI_binary64_eq,
    round_binary64_eq (by norm_num) 2 7074237752028440 (by norm_num) (by norm_num)
      (by norm_num) (by norm_num)]
  norm_num

/-- C16, as stated, fails on doubles at `x = -1e-20`: `fmod` returns `x`, which is negative,
so the first loop runs once; `x + 2 * M_PI` rounds to `2 * M_PI`, so the second loop runs
once as well and leaves `0`. The two loops together execute two iterations. -/
theorem range_reduce_rounded_two_iterations :
    round_binary64 (round_binary64 (-1e-20 : ℝ) + 2 * M_PI_binary64) = 2 * M_PI_binary64 ∧
    range_reduce_rounded round_binary64 (M_PI_binary64 : ℝ) 1 (round_binary64 (-1e-20))
      = some (0, 1, 1) ∧
    ¬ (1 + 1 ≤ 1) := by
  refine ⟨round_binary64_absorb, ?_, by decide⟩
  have hM := M_PI_binary64_pos
  have hx : round_binary64 (-1e-20 : ℝ) < 0 := by rw [neg_1e20_binary64_eq]; norm_num
  have hx2 : -(2 * M_PI_binary64) < round_binary64 (-1e-20 : ℝ) := by
    rw [neg_1e20_binary64_eq, M_PI_binary64_eq]; norm_num
  have h2 : (2.0 : ℝ) = 2 := by norm_num
  have hf : fmod (round_binary64 (-1e-20 : ℝ)) (2 * M_PI_binary64) = round_binary64 (-1e-20) :=
    fmod_of_abs_lt _ _ (by linarith) hx2 (by linarith)
  have l1 := whileLoop_once (fun x : ℝ => decide (x < 0))
    (fun x => round_binary64 (x + 2 * M_PI_binary64)) 0 (round_binary64 (-1e-20))
    (by simpa using hx)
    (by simp only [round_binary64_absorb, decide_eq_false_iff_not, not_lt]; linarith)
  have l2 := whileLoop_once (fun x : ℝ => decide (x ≥ 2 * M_PI_binary64))
    (fun x => round_binary64 (x - 2 * M_PI_binary64)) 0 (2 * M_PI_binary64)
    (by simp)
    (by simp only [sub_self, round_binary64_zero, decide_eq_false_iff_not, not_le]; linarith)
  unfold range_reduce_rounded
  rw [h2]
  simp only [Option.bind_eq_bind, Option.pure_def, hf]
  rw [if_neg (by linarith), l1]
  simp only [Option.some_bind, round_binary64_absorb]
  rw [l2]
  simp only [Option.some_bind, sub_self, round_binary64_zero]
  rw [if_neg (by linarith)]

/-- C16, amended: for every real `x`, of any magnitude, the range reduction run in binary64
arithmetic (the constant `M_PI` as a double, every sum and difference rounded) returns with
fuel for one iteration per loop, and each of the two `while` loops executes at most one
iteration, so together at most two: the value that enters the loops, after `fmod` and the
conditional shift, lies in `(-2 M_PI, 2 M_PI)`. The bound does not depend on `|x|`. -/
theorem range_reduce_rounded_loops_bounded (fuel : ℕ) (hfuel : 1 ≤ fuel) (x : ℝ) :
    (-(2 * M_PI_binary64) <
        (if fmod x (2 * M_PI_binary64) > M_PI_binary64
          then round_binary64 (fmod x (2 * M_PI_binary64) - 2 * M_PI_binary64)
          else fmod x (2 * M_PI_binary64)) ∧
      (if fmod x (2 * M_PI_binary64) > M_PI_binary64
          then round_binary64 (fmod x (2 * M_PI_binary64) - 2 * M_PI_binary64)
          else fmod x (2 * M_PI_binary64)) < 2 * M_PI_binary64) ∧
    ∃ r n1 n2, range_reduce_rounded round_binary64 (M_PI_binary64 : ℝ) fuel x = some (r, n1, n2) ∧
      n1 ≤ 1 ∧ n2 ≤ 1 ∧ n1 + n2 ≤ 2 := by
  obtain ⟨h1, r, n1, n2, h, hn1, hn2⟩ := range_reduce_rounded_spec round_binary64
    (fun _ _ h => round_binary64_mono h) round_binary64_zero (M_PI_binary64 : ℝ)
    M_PI_binary64_pos round_binary64_two_M_PI
    (by rw [round_binary64_neg, round_binary64_M_PI]) fuel hfuel x
  exact ⟨h1, r, n1, n2, h, hn1, hn2, by omega⟩

theorem range_reduce_rounded_loops_bounded_witness :
    1 ≤ 1 ∧
    (-(2 * M_PI_binary64) <
        (if fmod (1e30 : ℝ) (2 * M_PI_binary64) > M_PI_binary64
          then round_binary64 (fmod (1e30 : ℝ) (2 * M_PI_binary64) - 2 * M_PI_binary64)
          else fmod (1e30 : ℝ) (2 * M_PI_binary64)) ∧
      (if fmod (1e30 : ℝ) (2 * M_PI_binary64) > M_PI_binary64
          then round_binary64 (fmod (1e30 : ℝ) (2 * M_PI_binary64) - 2 * M_PI_binary64)
          else fmod (1e30 : ℝ) (2 * M_PI_binary64)) < 2 * M_PI_binary64) ∧
    ∃ r n1 n2, range_reduce_rounded round_binary64 (M_PI_binary64 : ℝ) 1 1e30 = some (r, n1, n2) ∧
      n1 ≤ 1 ∧ n2 ≤ 1 ∧ n1 + n2 ≤ 2 :=
  ⟨le_refl 1, range_reduce_rounded_loops_bounded 1 (le_refl 1) 1e30⟩

end Binary64

/-! ## Reads of the coefficient table -/

theorem mem_clenshaw_loop_reads (k i : ℕ) : i ∈ clenshaw_loop_reads k ↔ 1 ≤ i ∧ i ≤ k := by
  induction k with
  | zero => simp [clenshaw_loop_reads]; omega
  | succ k ih => simp only [clenshaw_loop_reads, List.mem_cons, ih]; omega

theorem clenshaw_loop_isSome_iff {R : Type} [LinearOrderedField R] (coeffs : List R) (y : R) :
    ∀ (k : ℕ) (b : R × R), (clenshaw_loop coeffs y k b).isSome ↔
      ∀ i ∈ clenshaw_loop_reads k, i < coeffs.length := by
  intro k
  induction k with
  | zero => intro b; simp [clenshaw_loop, clenshaw_loop_reads]
  | succ k ih =>
    intro b
    obtain ⟨b1, b2⟩ := b
    simp only [clenshaw_loop, clenshaw_loop_reads, List.mem_cons, forall_eq_or_imp]
    by_cases h : k + 1 < coeffs.length
    · simp only [List.getElem?_eq_getElem h, Option.bind_eq_bind, Option.some_bind, ih, h,
        true_and]
    · simp [List.getElem?_eq_none (Nat.le_of_not_lt h), h]

/-- The run of `clenshaw` returns a value exactly when every index in `clenshaw_reads` is
inside `coeffs`: a read outside the block is the only way for it to fail. -/
theorem clenshaw_isSome_iff {R : Type} [LinearOrderedField R] (sc : SineChebyshev R) (u : R) :
    (clenshaw sc u).isSome ↔ ∀ i ∈ clenshaw_reads sc, i < sc.coeffs.length := by
  unfold clenshaw clenshaw_reads
  generalize (sc.terms - 1).toNat = K
  simp only [List.mem_append, List.mem_singleton, Option.bind_eq_bind, Option.pure_def]
  constructor
  · intro h i hi
    cases hloop : clenshaw_loop sc.coeffs (2.0 * u) K (0.0, 0.0) with
    | none => rw [hloop] at h; exact absurd h (by simp)
    | some b =>
      rcases hi with hi | hi
      · exact (clenshaw_loop_isSome_iff sc.coeffs (2.0 * u) K (0.0, 0.0)).mp
          (by rw [hloop]; rfl) i hi
      · subst hi
        by_contra hlen
        rw [hloop, Option.some_bind, List.getElem?_eq_none (Nat.le_of_not_lt hlen)] at h
        exact absurd h (by simp)
  · intro h
    have h1 := (clenshaw_loop_isSome_iff sc.coeffs (2.0 * u) K (0.0, 0.0)).mpr
      (fun i hi => h i (Or.inl hi))
    obtain ⟨b, hb⟩ := Option.isSome_iff_exists.mp h1
    have h0 : 0 < sc.coeffs.length := h 0 (Or.inr rfl)
    rw [hb, Option.some_bind, List.getElem?_eq_getElem h0]
    rfl

/-- C20: for every approximator with `terms ≥ 1` and exactly `terms` coefficients, every
index read by `calculate_chebyshev` (`k = terms - 1, …, 1` in the loop and `0` in the final
expression) lies in `0..terms-1` and is a cell of `coeffs`, so the call returns a value; for
`terms = 1` the loop reads nothing and the result is `0.5 * coeffs[0]` for every `x`. -/
theorem calculate_chebyshev_reads_in_range (M_PI : ℝ) (hpi : 0 < M_PI) (fuel : ℕ)
    (hfuel : 1 ≤ fuel) (sc : SineChebyshev ℝ) (hN : 1 ≤ sc.terms)
    (hlen : (sc.coeffs.length : ℤ) = sc.terms) (x : ℝ) :
    (∀ i ∈ clenshaw_reads sc, (i : ℤ) < sc.terms ∧ ∃ c, sc.coeffs[i]? = some c) ∧
    (∃ v, calculate_chebyshev M_PI fuel sc x = some v) ∧
    (sc.terms = 1 → clenshaw_reads sc = [0] ∧
      calculate_chebyshev M_PI fuel sc x = some (0.5 * sc.coeffs.getD 0 0)) := by
  refine ⟨?_, calculate_chebyshev_total M_PI hpi fuel hfuel sc hN hlen x, ?_⟩
  · intro i hi
    have hi' : i < sc.coeffs.length := by
      simp only [clenshaw_reads, List.mem_append, List.mem_singleton,
        mem_clenshaw_loop_reads] at hi
      omega
    exact ⟨by omega, _, List.getElem?_eq_getElem hi'⟩
  · intro h1
    obtain ⟨r, n, hr, _⟩ := range_reduce_spec M_PI hpi fuel hfuel x
    refine ⟨by simp [clenshaw_reads, h1, clenshaw_loop_reads], ?_⟩
    rw [calculate_chebyshev_spec M_PI fuel sc x r n hr, clenshaw_spec sc _ hN hlen, h1]
    simp

theorem calculate_chebyshev_reads_in_range_witness :
    (0 : ℝ) < Real.pi ∧ 1 ≤ 1 ∧ (1 : ℤ) ≤ 1 ∧ (([7] : List ℝ).length : ℤ) = 1 ∧
    (∀ i ∈ clenshaw_reads (⟨1, [7]⟩ : SineChebyshev ℝ),
      (i : ℤ) < 1 ∧ ∃ c, ([7] : List ℝ)[i]? = some c) ∧
    (∃ v, calculate_chebyshev Real.pi 1 ⟨1, [7]⟩ (3 : ℝ) = some v) ∧
    ((1 : ℤ) = 1 → clenshaw_reads (⟨1, [7]⟩ : SineChebyshev ℝ) = [0] ∧
      calculate_chebyshev Real.pi 1 ⟨1, [7]⟩ (3 : ℝ)
        = some (0.5 * ([7] : List ℝ).getD 0 0)) :=
  ⟨Real.pi_pos, le_refl 1, le_refl 1, by simp,
    calculate_chebyshev_reads_in_range Real.pi Real.pi_pos 1 (le_refl 1) ⟨1, [7]⟩ (le_refl 1)
      (by simp) 3⟩

/-! ## Symmetry of the nodes and interpolation -/

section NodeProperties

open Real

end NodeProperties

end Sine

/-! ## The string functions -/

namespace CString

theorem starts_with_nil (s : List Char) : starts_with s [] = true := by
  cases s <;> rfl

theorem starts_with_iff (s n : List Char) : starts_with s n = true ↔ ∃ t, s = n ++ t := by
  induction n generalizing s with
  | nil => simp [starts_with_nil]
  | cons d n ih =>
    cases s with
    | nil => simp [starts_with]
    | cons c s =>
      simp only [starts_with, Bool.and_eq_true, decide_eq_true_eq, ih, List.cons_append,
        List.cons.injEq]
      constructor
      · rintro ⟨rfl, t, rfl⟩; exact ⟨t, rfl, rfl⟩
      · rintro ⟨t, rfl, rfl⟩; exact ⟨rfl, t, rfl⟩

theorem starts_with_length (s n : List Char) (h : starts_with s n = true) :
    n.length ≤ s.length := by
  obtain ⟨t, rfl⟩ := (starts_with_iff s n).mp h
  simp

theorem occurs_at_zero (h n : List Char) : occurs_at h n 0 = starts_with h n := by
  simp [occurs_at]

theorem occurs_at_succ (c : Char) (h n : List Char) (i : Nat) :
    occurs_at (c :: h) n (i + 1) = occurs_at h n i := by
  simp [occurs_at]

/-- Function `strstr` returns the first occurrence. -/
theorem strstr_eq_some (h n : List Char) (i : Nat) :
    strstr h n = some i ↔ occurs_at h n i = true ∧ ∀ j, j < i → occurs_at h n j = false := by
  induction h generalizing i with
  | nil =>
    simp only [strstr]
    by_cases hs : starts_with [] n = true
    · simp only [hs, if_true, Option.some.injEq]
      constructor
      · rintro rfl; exact ⟨by simp [occurs_at, hs], fun j hj => absurd hj (Nat.not_lt_zero j)⟩
      · rintro ⟨h1, h2⟩
        by_contra hne
        have := h2 0 (Nat.pos_of_ne_zero (fun h0 => hne h0.symm))
        simp [occurs_at, hs] at this
    · simp only [hs]
      constructor
      · intro h; exact absurd h (by simp)
      · rintro ⟨h1, _⟩
        simp only [occurs_at, List.length_nil, Nat.le_zero_eq, List.drop_nil,
          Bool.and_eq_true, decide_eq_true_eq] at h1
        exact absurd h1.2 hs
  | cons c h ih =>
    simp only [strstr]
    by_cases hs : starts_with (c :: h) n = true
    · simp only [hs, if_true, Option.some.injEq]
      constructor
      · rintro rfl; exact ⟨by simp [occurs_at, hs], fun j hj => absurd hj (Nat.not_lt_zero j)⟩
      · rintro ⟨_, h2⟩
        by_contra hne
        have := h2 0 (Nat.pos_of_ne_zero (fun h0 => hne h0.symm))
        simp [occurs_at, hs] at this
    · simp only [hs]
      cases i with
      | zero =>
        constructor
        · intro h0
          cases hh : strstr h n <;> simp [hh] at h0
        · rintro ⟨h1, _⟩
          rw [occurs_at_zero] at h1
          exact absurd h1 hs
      | succ i =>
        rw [occurs_at_succ]
        have : (Option.map (fun i => i + 1) (strstr h n) = some (i + 1)) ↔ strstr h n = some i := by
          cases hh : strstr h n <;> simp
        simp only [Bool.false_eq_true, if_false, this, ih i]
        constructor
        · rintro ⟨h1, h2⟩
          refine ⟨h1, fun j hj => ?_⟩
          cases j with
          | zero =>
            rw [occurs_at_zero]
            exact Bool.eq_false_iff.mpr hs
          | succ j => rw [occurs_at_succ]; exact h2 j (by omega)
        · rintro ⟨h1, h2⟩
          exact ⟨h1, fun j hj => by have := h2 (j + 1) (by omega); rwa [occurs_at_succ] at this⟩

theorem occurs_at_le (h n : List Char) (i : Nat) (hocc : occurs_at h n i = true) :
    i + n.length ≤ h.length := by
  simp only [occurs_at, Bool.and_eq_true, decide_eq_true_eq] at hocc
  have := starts_with_length _ _ hocc.2
  simp at this
  omega

theorem strstr_eq_none (h n : List Char) :
    strstr h n = none ↔ ∀ j, occurs_at h n j = false := by
  constructor
  · intro hnone j
    by_contra hj
    have hj' : occurs_at h n j = true := by simpa using hj
    -- take the least occurrence
    have hex : ∃ i, occurs_at h n i = true := ⟨j, hj'⟩
    classical
    have hmin := Nat.find_spec hex
    have hlt : ∀ k, k < Nat.find hex → occurs_at h n k = false := fun k hk => by
      have := Nat.find_min hex hk
      simpa using this
    have := (strstr_eq_some h n (Nat.find hex)).mpr ⟨hmin, hlt⟩
    rw [hnone] at this
    exact absurd this (by simp)
  · intro hall
    cases hh : strstr h n with
    | none => rfl
    | some i =>
      have := ((strstr_eq_some h n i).mp hh).1
      rw [hall i] at this
      exact absurd this (by simp)

theorem occurs_at_drop (h n : List Char) (s d : Nat) (hs : s ≤ h.length) :
    occurs_at (h.drop s) n d = occurs_at h n (s + d) := by
  simp only [occurs_at, List.length_drop, List.drop_drop]
  have : (d ≤ h.length - s) ↔ (s + d ≤ h.length) := by omega
  simp only [this]

/-- Function `strchr` returns the first position that holds the byte. -/
theorem strchr_eq_some (s : List Char) (c : Char) (i : Nat) :
    strchr s c = some i ↔ s[i]? = some c ∧ ∀ j, j < i → s[j]? ≠ some c := by
  induction s generalizing i with
  | nil => simp [strchr]
  | cons d s ih =>
    simp only [strchr]
    by_cases hd : d = c
    · subst hd
      simp only [if_true, Option.some.injEq]
      constructor
      · rintro rfl; exact ⟨by simp, fun j hj => absurd hj (Nat.not_lt_zero j)⟩
      · rintro ⟨_, h2⟩
        by_contra hne
        exact h2 0 (Nat.pos_of_ne_zero (fun h0 => hne h0.symm)) (by simp)
    · simp only [hd, if_false]
      cases i with
      | zero =>
        constructor
        · intro h0; cases hh : strchr s c <;> simp [hh] at h0
        · rintro ⟨h1, _⟩
          simp at h1
          exact absurd h1 hd
      | succ i =>
        have : (Option.map (fun i => i + 1) (strchr s c) = some (i + 1)) ↔ strchr s c = some i := by
          cases hh : strchr s c <;> simp
        rw [this, ih i]
        simp only [List.getElem?_cons_succ]
        constructor
        · rintro ⟨h1, h2⟩
          refine ⟨h1, fun j hj => ?_⟩
          cases j with
          | zero => simpa using hd
          | succ j => simpa using h2 j (by omega)
        · rintro ⟨h1, h2⟩
          exact ⟨h1, fun j hj => by simpa using h2 (j + 1) (by omega)⟩

theorem strchr_eq_none (s : List Char) (c : Char) : strchr s c = none ↔ c ∉ s := by
  induction s with
  | nil => simp [strchr]
  | cons d s ih =>
    simp only [strchr, List.mem_cons, not_or]
    by_cases hd : d = c
    · subst hd; simp
    · simp only [hd, if_false, Option.map_eq_none', ih]
      exact ⟨fun h => ⟨fun h' => hd h'.symm, h⟩, fun h => h.2⟩

theorem strchr_append (pre post : List Char) (c : Char) (h : c ∉ pre) :
    strchr (pre ++ c :: post) c = some pre.length := by
  induction pre with
  | nil => simp [strchr]
  | cons d pre ih =>
    simp only [List.mem_cons, not_or] at h
    have hd : ¬ d = c := fun h' => h.1 h'.symm
    simp [strchr, hd, ih h.2]

end CString

/-! ## `logic.c`: the last occurrence -/

namespace Logic

open CString

theorem find_last_loop_spec (h n : List Char) (hne : n ≠ []) :
    ∀ (fuel start : ℕ) (found : Option ℕ), start ≤ h.length → h.length - start ≤ fuel →
      (found = none → ∀ j, j < start → occurs_at h n j = false) →
      (∀ f, found = some f → occurs_at h n f = true ∧ f < start ∧
        ∀ j, f < j → j < start → occurs_at h n j = false) →
      ∃ r, find_last_loop h n fuel start found = some r ∧
        (r = none → ∀ j, occurs_at h n j = false) ∧
        (∀ i, r = some i → occurs_at h n i = true ∧ ∀ j, i < j → occurs_at h n j = false) := by
  have hlen : 1 ≤ n.length := by
    cases n with
    | nil => exact absurd rfl hne
    | cons c n => simp
  -- what the loop does when the search from `start` fails
  have hstop : ∀ (start : ℕ) (found : Option ℕ), start ≤ h.length →
      strstr (h.drop start) n = none →
      (found = none → ∀ j, j < start → occurs_at h n j = false) →
      (∀ f, found = some f → occurs_at h n f = true ∧ f < start ∧
        ∀ j, f < j → j < start → occurs_at h n j = false) →
      (found = none → ∀ j, occurs_at h n j = false) ∧
      (∀ i, found = some i → occurs_at h n i = true ∧ ∀ j, i < j → occurs_at h n j = false) := by
    intro start found hs hnone h1 h2
    have hge : ∀ j, start ≤ j → occurs_at h n j = false := by
      intro j hj
      have := (strstr_eq_none _ _).mp hnone (j - start)
      rw [occurs_at_drop h n start (j - start) hs] at this
      rwa [show start + (j - start) = j by omega] at this
    refine ⟨fun hf j => ?_, fun i hi => ⟨(h2 i hi).1, fun j hj => ?_⟩⟩
    · rcases Nat.lt_or_ge j start with hj | hj
      · exact h1 hf j hj
      · exact hge j hj
    · rcases Nat.lt_or_ge j start with hj' | hj'
      · exact (h2 i hi).2.2 j hj hj'
      · exact hge j hj'
  intro fuel
  induction fuel with
  | zero =>
    intro start found hs hfuel h1 h2
    have hnone : strstr (h.drop start) n = none := by
      cases hh : strstr (h.drop start) n with
      | none => rfl
      | some d =>
        have hocc := ((strstr_eq_some _ _ d).mp hh).1
        rw [occurs_at_drop h n start d hs] at hocc
        have := occurs_at_le h n _ hocc
        omega
    exact ⟨found, by simp [find_last_loop, hs, hnone], hstop start found hs hnone h1 h2⟩
  | succ fuel ih =>
    intro start found hs hfuel h1 h2
    cases hh : strstr (h.drop start) n with
    | none => exact ⟨found, by simp [find_last_loop, hs, hh], hstop start found hs hh h1 h2⟩
    | some d =>
      obtain ⟨hocc, hbefore⟩ := (strstr_eq_some _ _ d).mp hh
      rw [occurs_at_drop h n start d hs] at hocc
      have hle := occurs_at_le h n _ hocc
      obtain ⟨r, hr, hspec⟩ := ih (start + d + 1) (some (start + d)) (by omega) (by omega)
        (fun hf => absurd hf (by simp))
        (fun f hf => by
          have hf' : f = start + d := by simpa using hf.symm
          subst hf'
          exact ⟨hocc, by omega, fun j hj1 hj2 => by omega⟩)
      exact ⟨r, by simp [find_last_loop, hs, hh, hr], hspec⟩

theorem find_last_spec (h n : List Char) (hne : n ≠ []) (fuel : ℕ) (hfuel : h.length ≤ fuel) :
    ∃ r, find_last fuel h n = some r ∧
      (r = none → ∀ j, occurs_at h n j = false) ∧
      (∀ i, r = some i → occurs_at h n i = true ∧ ∀ j, i < j → occurs_at h n j = false) :=
  find_last_loop_spec h n hne fuel 0 none (Nat.zero_le _) (by omega)
    (fun _ j hj => absurd hj (Nat.not_lt_zero j)) (fun f hf => absurd hf (by simp))

theorem get_int_from_json_eq (atoi : List Char → Int) (fuel : ℕ) (json key : List Char)
    (hkey : key.length ≤ 28) (r : Option ℕ)
    (hr : find_last fuel json ('"' :: (key ++ ['"', ':'])) = some r) :
    get_int_from_json atoi fuel json key = some (match r with
      | none => 0
      | some p => atoi (json.drop (p + ('"' :: (key ++ ['"', ':'])).length))) := by
  have hs : search_pattern 32 key = some ('"' :: (key ++ ['"', ':'])) := by
    simp only [search_pattern]
    rw [if_pos (by omega)]
  simp only [get_int_from_json, hs, Option.bind_eq_bind, Option.some_bind, hr]
  cases r <;> rfl

/-- C12, as stated, fails for a key of 40 bytes: the pattern `"key":` then needs 44 bytes and
does not fit `char search[32]`, so `get_int_from_json` has no defined result. -/
theorem get_int_from_json_long_key :
    (List.replicate 40 'k').length + 4 = 44 ∧
    get_int_from_json (fun s => (leading_digits s 0 : ℤ)) 64
      "\x7b\"kkkkkkkkkkkkkkkkkkkkkkkkkkkkkkkkkkkkkkkk\":7\x7d".data (List.replicate 40 'k')
      = none := by
  constructor
  · decide
  · rfl

/-- C12, amended: in `logic.c`, for every string `json`, every nonempty needle and every key of
at most 28 bytes (so that `"key":` fits `char search[32]`): `find_last` returns the position
of the last occurrence of the needle, or `NULL` when there is none, and `get_int_from_json`
returns `atoi` of the text right after the last occurrence of `"key":`, and `0` when the
pattern does not occur. -/
theorem find_last_get_int_from_json_spec (atoi : List Char → Int) (json needle key : List Char)
    (hne : needle ≠ []) (hkey : key.length ≤ 28) (fuel : ℕ) (hfuel : json.length ≤ fuel) :
    (∃ r, find_last fuel json needle = some r ∧
      (r = none → ∀ j, occurs_at json needle j = false) ∧
      (∀ i, r = some i → occurs_at json needle i = true ∧
        ∀ j, i < j → occurs_at json needle j = false)) ∧
    ((∀ j, occurs_at json ('"' :: (key ++ ['"', ':'])) j = false) →
      get_int_from_json atoi fuel json key = some 0) ∧
    (∀ i, occurs_at json ('"' :: (key ++ ['"', ':'])) i = true →
      (∀ j, i < j → occurs_at json ('"' :: (key ++ ['"', ':'])) j = false) →
      get_int_from_json atoi fuel json key
        = some (atoi (json.drop (i + ('"' :: (key ++ ['"', ':'])).length)))) := by
  refine ⟨find_last_spec json needle hne fuel hfuel, ?_, ?_⟩
  · intro hnone
    obtain ⟨r, hr, _, h2⟩ :=
      find_last_spec json ('"' :: (key ++ ['"', ':'])) (by simp) fuel hfuel
    rw [get_int_from_json_eq atoi fuel json key hkey r hr]
    cases r with
    | none => rfl
    | some p =>
      have := (h2 p rfl).1
      rw [hnone p] at this
      exact absurd this (by simp)
  · intro i hocc hlast
    obtain ⟨r, hr, h1, h2⟩ :=
      find_last_spec json ('"' :: (key ++ ['"', ':'])) (by simp) fuel hfuel
    rw [get_int_from_json_eq atoi fuel json key hkey r hr]
    cases r with
    | none =>
      have := h1 rfl i
      rw [hocc] at this
      exact absurd this (by simp)
    | some p =>
      obtain ⟨hp, hplast⟩ := h2 p rfl
      have hip : p = i := by
        rcases Nat.lt_trichotomy p i with h | h | h
        · have := hplast i h; rw [hocc] at this; exact absurd this (by simp)
        · exact h
        · have := hlast p h; rw [hp] at this; exact absurd this (by simp)
      subst hip
      rfl

theorem find_last_get_int_from_json_spec_witness :
    ("\"a\":".data ≠ []) ∧ "a".data.length ≤ 28 ∧ "\x7b\"a\":1,\"a\":25\x7d".data.length ≤ 16 ∧
    (∃ r, find_last 16 "\x7b\"a\":1,\"a\":25\x7d".data "\"a\":".data = some r ∧
      (r = none → ∀ j, occurs_at "\x7b\"a\":1,\"a\":25\x7d".data "\"a\":".data j = false) ∧
      (∀ i, r = some i → occurs_at "\x7b\"a\":1,\"a\":25\x7d".data "\"a\":".data i = true ∧
        ∀ j, i < j → occurs_at "\x7b\"a\":1,\"a\":25\x7d".data "\"a\":".data j = false)) ∧
    ((∀ j, occurs_at "\x7b\"a\":1,\"a\":25\x7d".data ('"' :: ("a".data ++ ['"', ':'])) j = false) →
      get_int_from_json (fun s => (leading_digits s 0 : ℤ)) 16
        "\x7b\"a\":1,\"a\":25\x7d".data "a".data = some 0) ∧
    (∀ i, occurs_at "\x7b\"a\":1,\"a\":25\x7d".data ('"' :: ("a".data ++ ['"', ':'])) i = true →
      (∀ j, i < j →
        occurs_at "\x7b\"a\":1,\"a\":25\x7d".data ('"' :: ("a".data ++ ['"', ':'])) j = false) →
      get_int_from_json (fun s => (leading_digits s 0 : ℤ)) 16
          "\x7b\"a\":1,\"a\":25\x7d".data "a".data
        = some ((fun s => (leading_digits s 0 : ℤ)) ("\x7b\"a\":1,\"a\":25\x7d".data.drop
            (i + ('"' :: ("a".data ++ ['"', ':'])).length)))) :=
  ⟨by decide, by decide, by decide,
    find_last_get_int_from_json_spec (fun s => (leading_digits s 0 : ℤ))
      "\x7b\"a\":1,\"a\":25\x7d".data "\"a\":".data "a".data (by decide) (by decide) 16
      (by decide)⟩

end Logic

/-! ## `logic_advanced.c`: objects, fields and dispatch -/

namespace LogicAdvanced

open CString

theorem brace_balance_nil : brace_balance [] = 0 := by simp [brace_balance]

theorem brace_balance_cons (c : Char) (s : List Char) :
    brace_balance (c :: s)
      = (if c = '{' then 1 else 0) - (if c = '}' then 1 else 0) + brace_balance s := by
  unfold brace_balance
  by_cases h1 : c = '{'
  · subst h1
    simp [List.count_cons]
    ring
  · by_cases h2 : c = '}'
    · subst h2
      simp [List.count_cons]
      ring
    · have h1' : ¬ ('{' = c) := fun h => h1 h.symm
      have h2' : ¬ ('}' = c) := fun h => h2 h.symm
      simp [List.count_cons, h1, h2, h1', h2']

/-- The loop of `next_object` stops right after the shortest nonempty text whose balance
cancels the starting balance, and fails when there is none. -/
theorem next_object_loop_spec (cs : List Char) :
    ∀ (bal : Int) (p : ℕ),
      (next_object_loop cs bal p = none →
        ∀ n, 1 ≤ n → n ≤ cs.length → bal + brace_balance (cs.take n) ≠ 0) ∧
      (∀ e, next_object_loop cs bal p = some e →
        ∃ n, e = p + n ∧ 1 ≤ n ∧ n ≤ cs.length ∧ bal + brace_balance (cs.take n) = 0 ∧
          ∀ m, 1 ≤ m → m < n → bal + brace_balance (cs.take m) ≠ 0) := by
  induction cs with
  | nil =>
    intro bal p
    refine ⟨fun _ n h1 h2 => ?_, fun e he => ?_⟩
    · simp at h2; omega
    · simp [next_object_loop] at he
  | cons c cs ih =>
    intro bal p
    have hstep : bal + brace_balance [c]
        = (if c = '}' then (if c = '{' then bal + 1 else bal) - 1
            else (if c = '{' then bal + 1 else bal)) := by
      rw [brace_balance_cons, brace_balance_nil]
      by_cases h1 : c = '{'
      · subst h1; simp
      · by_cases h2 : c = '}'
        · subst h2; simp; ring
        · simp [h1, h2]
    have htake : ∀ n, brace_balance ((c :: cs).take (n + 1))
        = brace_balance [c] + brace_balance (cs.take n) := by
      intro n
      rw [List.take_succ_cons, brace_balance_cons, brace_balance_cons, brace_balance_nil]
      ring
    simp only [next_object_loop]
    rw [← hstep]
    by_cases h0 : bal + brace_balance [c] = 0
    · simp only [h0, if_true]
      refine ⟨fun h => absurd h (by simp), fun e he => ?_⟩
      have he' : e = p + 1 := by simpa using he.symm
      refine ⟨1, he', le_refl 1, by simp, ?_, fun m h1 h2 => by omega⟩
      simpa using h0
    · simp only [h0, if_false]
      obtain ⟨ih1, ih2⟩ := ih (bal + brace_balance [c]) (p + 1)
      refine ⟨fun hnone n h1 h2 => ?_, fun e he => ?_⟩
      · obtain ⟨n', rfl⟩ : ∃ n', n = n' + 1 := ⟨n - 1, by omega⟩
        rw [htake, ← add_assoc]
        rcases Nat.eq_zero_or_pos n' with hz | hpos
        · subst hz; simpa [brace_balance_nil] using h0
        · exact ih1 hnone n' hpos (by simpa using h2)
      · obtain ⟨n, hn, h1, h2, h3, h4⟩ := ih2 e he
        refine ⟨n + 1, by omega, by omega, by simpa using h2, ?_, fun m hm1 hm2 => ?_⟩
        · rw [htake, ← add_assoc]; exact h3
        · obtain ⟨m', rfl⟩ : ∃ m', m = m' + 1 := ⟨m - 1, by omega⟩
          rw [htake, ← add_assoc]
          rcases Nat.eq_zero_or_pos m' with hz | hpos
          · subst hz; simpa [brace_balance_nil] using h0
          · exact h4 m' hpos (by omega)


theorem brace_balance_append_singleton (l : List Char) (c : Char) :
    brace_balance (l ++ [c])
      = brace_balance l + ((if c = '{' then 1 else 0) - (if c = '}' then 1 else 0)) := by
  induction l with
  | nil => rw [List.nil_append, brace_balance_cons, brace_balance_nil]; ring
  | cons d l ih => rw [List.cons_append, brace_balance_cons, brace_balance_cons, ih]; ring

theorem take_succ_eq_append (t : List Char) (m : ℕ) (hm : m < t.length) :
    t.take (m + 1) = t.take m ++ [t[m]] := by
  rw [List.take_succ, List.getElem?_eq_getElem hm]
  rfl

/-- A text that opens with a brace keeps a positive balance until the balance first vanishes. -/
theorem brace_balance_pos (t : List Char) (n : ℕ) (hn : n ≤ t.length)
    (h1 : 0 < brace_balance (t.take 1))
    (hnz : ∀ m, 1 ≤ m → m < n → brace_balance (t.take m) ≠ 0) :
    ∀ m, 1 ≤ m → m < n → 0 < brace_balance (t.take m) := by
  intro m
  induction m with
  | zero => intro h; omega
  | succ m ih =>
    intro _ hlt
    rcases Nat.eq_zero_or_pos m with hz | hpos
    · subst hz; exact h1
    · have hprev := ih hpos (by omega)
      have hne := hnz (m + 1) (by omega) hlt
      rw [take_succ_eq_append t m (by omega), brace_balance_append_singleton] at hne ⊢
      split_ifs at hne ⊢ <;> omega

/-- C17: for every string `s`, `next_object (s)` returns `NULL` exactly when `s` contains no
`{` or the balance counted from the first `{` never returns to zero; otherwise it returns the
position right after the `}` that first brings that balance back to zero, and the text from
the first `{` up to the returned position starts with `{`, ends with `}` and has equally many
`{` and `}`. -/
theorem next_object_spec (s : List Char) :
    (next_object s = none ↔ ('{' ∉ s ∨ ∃ st, strchr s '{' = some st ∧
      ∀ n, 1 ≤ n → n ≤ (s.drop st).length → brace_balance ((s.drop st).take n) ≠ 0)) ∧
    (∀ e, next_object s = some e → ∃ st n, strchr s '{' = some st ∧ e = st + n ∧ 1 ≤ n ∧
      e ≤ s.length ∧ brace_balance ((s.drop st).take n) = 0 ∧
      (∀ m, 1 ≤ m → m < n → brace_balance ((s.drop st).take m) ≠ 0) ∧
      ((s.drop st).take n).head? = some '{' ∧ ((s.drop st).take n).getLast? = some '}' ∧
      ((s.drop st).take n).count '{' = ((s.drop st).take n).count '}') := by
  cases hst : strchr s '{' with
  | none =>
    have hno : '{' ∉ s := (strchr_eq_none s '{').mp hst
    exact ⟨by simp [next_object, hst, hno], fun e he => by simp [next_object, hst] at he⟩
  | some st =>
    have hmem : ¬ ('{' ∉ s) := fun h => by
      rw [← strchr_eq_none, hst] at h; exact absurd h (by simp)
    obtain ⟨hfirst, _⟩ := (strchr_eq_some s '{' st).mp hst
    have hstlt : st < s.length := by
      by_contra hge
      rw [List.getElem?_eq_none (Nat.le_of_not_lt hge)] at hfirst
      exact absurd hfirst (by simp)
    obtain ⟨rest, hrest⟩ : ∃ rest, s.drop st = '{' :: rest := by
      refine ⟨s.drop (st + 1), ?_⟩
      rw [List.drop_eq_getElem_cons hstlt]
      congr 1
      have := List.getElem?_eq_getElem hstlt
      rw [this] at hfirst
      exact Option.some.inj hfirst
    obtain ⟨l1, l2⟩ := next_object_loop_spec (s.drop st) 0 st
    have hdef : next_object s = next_object_loop (s.drop st) 0 st := by
      simp [next_object, hst]
    rw [hdef]
    constructor
    · constructor
      · intro hnone
        exact Or.inr ⟨st, rfl, fun n h1 h2 => by simpa using l1 hnone n h1 h2⟩
      · rintro (h | ⟨st', hst', hall⟩)
        · exact absurd h hmem
        · have : st' = st := by simpa using hst'.symm
          subst this
          cases hloop : next_object_loop (s.drop st') 0 st' with
          | none => rfl
          | some e =>
            obtain ⟨n, _, h1, h2, h3, _⟩ := l2 e hloop
            exact absurd (by simpa using h3) (hall n h1 h2)
    · intro e he
      obtain ⟨n, hn, h1, h2, h3, h4⟩ := l2 e he
      have h3' : brace_balance ((s.drop st).take n) = 0 := by simpa using h3
      have h4' : ∀ m, 1 ≤ m → m < n → brace_balance ((s.drop st).take m) ≠ 0 :=
        fun m hm1 hm2 => by simpa using h4 m hm1 hm2
      have hone : brace_balance ((s.drop st).take 1) = 1 := by
        rw [hrest]; simp [brace_balance]
      have hn2 : 2 ≤ n := by
        by_contra hlt
        have : n = 1 := by omega
        subst this
        rw [hone] at h3'
        exact absurd h3' (by decide)
      have hpos := brace_balance_pos (s.drop st) n h2 (by rw [hone]; decide) h4' (n - 1)
        (by omega) (by omega)
      have hlen : (s.drop st).length = s.length - st := List.length_drop st s
      refine ⟨st, n, rfl, hn, h1, by omega, h3', h4', ?_, ?_, ?_⟩
      · obtain ⟨n', rfl⟩ : ∃ n', n = n' + 1 := ⟨n - 1, by omega⟩
        rw [hrest]; rfl
      · have hsplit := take_succ_eq_append (s.drop st) (n - 1) (by omega)
        rw [show n - 1 + 1 = n by omega] at hsplit
        rw [hsplit, List.getLast?_append, List.getLast?_singleton]
        have hbal := h3'
        rw [hsplit, brace_balance_append_singleton] at hbal
        have hb : n - 1 < (s.drop st).length := by omega
        have hc : (s.drop st)[n - 1] = '}' := by
          by_contra hne
          rw [if_neg hne] at hbal
          split_ifs at hbal <;> omega
        simp [hc]
      · unfold brace_balance at h3'
        omega

theorem search_pattern_64 (key : List Char) (hkey : key.length ≤ 60) :
    search_pattern 64 key = some ('"' :: (key ++ ['"', ':'])) := by
  simp only [search_pattern]
  rw [if_pos (by omega)]

theorem get_float_from_json_of_strstr {R : Type} [Zero R] (atof : List Char → R)
    (json key : List Char) (hkey : key.length ≤ 60) (i : ℕ)
    (h : strstr json ('"' :: (key ++ ['"', ':'])) = some i) :
    get_float_from_json atof json key = some (atof
      ((json.drop (i + ('"' :: (key ++ ['"', ':'])).length)).dropWhile (fun c => c = ' '))) := by
  simp only [get_float_from_json, search_pattern_64 key hkey, Option.bind_eq_bind,
    Option.some_bind, h, Option.pure_def]

theorem get_float_from_json_of_absent {R : Type} [Zero R] (atof : List Char → R)
    (json key : List Char) (hkey : key.length ≤ 60)
    (h : strstr json ('"' :: (key ++ ['"', ':'])) = none) :
    get_float_from_json atof json key = some 0 := by
  simp only [get_float_from_json, search_pattern_64 key hkey, Option.bind_eq_bind,
    Option.some_bind, h, Option.pure_def]

theorem get_float_from_json_total {R : Type} [Zero R] (atof : List Char → R)
    (json key : List Char) (hkey : key.length ≤ 60) :
    ∃ v, get_float_from_json atof json key = some v := by
  cases h : strstr json ('"' :: (key ++ ['"', ':'])) with
  | none => exact ⟨_, get_float_from_json_of_absent atof json key hkey h⟩
  | some i => exact ⟨_, get_float_from_json_of_strstr atof json key hkey i h⟩

theorem drop_length_succ_append (pre rest : List Char) (c : Char) :
    (pre ++ c :: rest).drop (pre.length + 1) = rest := by
  induction pre with
  | nil => rfl
  | cons d pre ih => simp

theorem take_length_append (val rest : List Char) : (val ++ rest).take val.length = val := by
  induction val with
  | nil => rfl
  | cons d val ih => simp

theorem get_string_from_json_of_strstr (json key : List Char) (hkey : key.length ≤ 60)
    (cap i : ℕ) (h : strstr json ('"' :: (key ++ ['"', ':'])) = some i)
    (pre val post : List Char)
    (hrest : json.drop (i + ('"' :: (key ++ ['"', ':'])).length)
      = pre ++ '"' :: (val ++ '"' :: post))
    (hpre : '"' ∉ pre) (hval : '"' ∉ val) (hcap : val.length + 1 ≤ cap) :
    get_string_from_json json key cap = some val := by
  simp only [get_string_from_json, search_pattern_64 key hkey, Option.bind_eq_bind,
    Option.some_bind, h, hrest, strchr_append pre _ '"' hpre, drop_length_succ_append,
    strchr_append val post '"' hval, if_pos hcap, take_length_append]

theorem get_string_from_json_of_absent (json key : List Char) (hkey : key.length ≤ 60)
    (cap : ℕ) (hcap : 4 ≤ cap) (h : strstr json ('"' :: (key ++ ['"', ':'])) = none) :
    get_string_from_json json key cap = some ['a', 'd', 'd'] := by
  simp only [get_string_from_json, search_pattern_64 key hkey, Option.bind_eq_bind,
    Option.some_bind, h, if_pos hcap]


/-- C11, as stated, fails when the pattern occurs twice: on `{"a":1,"a":2}` the float
extractor returns `1`, the value after the first occurrence, while `2` follows the last
occurrence (offset 7); on `{"op":"add","op":"mul"}` the string extractor returns `add`, while
`"mul"` follows the last occurrence (offset 12). -/
theorem extractors_not_last_match :
    get_float_from_json (fun s => ((leading_digits s 0 : ℕ) : ℝ))
        "\x7b\"a\":1,\"a\":2\x7d".data "a".data = some 1 ∧
    occurs_at "\x7b\"a\":1,\"a\":2\x7d".data "\"a\":".data 7 = true ∧
    (∀ j, j < 14 → 7 < j → occurs_at "\x7b\"a\":1,\"a\":2\x7d".data "\"a\":".data j = false) ∧
    ((fun s => ((leading_digits s 0 : ℕ) : ℝ)) ("\x7b\"a\":1,\"a\":2\x7d".data.drop (7 + 4)) = 2) ∧
    (1 : ℝ) ≠ 2 ∧
    get_string_from_json "\x7b\"op\":\"add\",\"op\":\"mul\"\x7d".data "op".data 32
      = some "add".data ∧
    occurs_at "\x7b\"op\":\"add\",\"op\":\"mul\"\x7d".data "\"op\":".data 12 = true ∧
    (∀ j, j < 24 → 12 < j →
      occurs_at "\x7b\"op\":\"add\",\"op\":\"mul\"\x7d".data "\"op\":".data j = false) ∧
    "\x7b\"op\":\"add\",\"op\":\"mul\"\x7d".data.drop (12 + 5) = "\"mul\"\x7d".data := by
  refine ⟨?_, by decide, by decide, ?_, by norm_num, by decide, by decide, by decide,
    by decide⟩
  · have h : strstr "\x7b\"a\":1,\"a\":2\x7d".data ('"' :: ("a".data ++ ['"', ':'])) = some 1 := by
      decide
    rw [get_float_from_json_of_strstr _ _ _ (by decide) 1 h]
    have hd : leading_digits (("\x7b\"a\":1,\"a\":2\x7d".data.drop
        (1 + ('"' :: ("a".data ++ ['"', ':'])).length)).dropWhile (fun c => c = ' ')) 0 = 1 := by
      decide
    simp only [hd, Nat.cast_one]
  · have hd : leading_digits ("\x7b\"a\":1,\"a\":2\x7d".data.drop (7 + 4)) 0 = 2 := by decide
    simp only [hd, Nat.cast_ofNat]

/-- C11, amended: in `logic_advanced.c` field extraction is first-match-wins. For every input
and every key of at most 60 bytes, if the pattern `"key":` occurs and `i` is its first
occurrence, `get_float_from_json` returns `atof` of the text after that occurrence (leading
blanks skipped) and `get_string_from_json` returns the text between the next two double
quotes after it (when it fits the buffer), whatever follows later in the input. -/
theorem extractors_first_match (atof : List Char → ℝ) (json key : List Char)
    (hkey : key.length ≤ 60) (i : ℕ)
    (hocc : occurs_at json ('"' :: (key ++ ['"', ':'])) i = true)
    (hfirst : ∀ j, j < i → occurs_at json ('"' :: (key ++ ['"', ':'])) j = false) :
    get_float_from_json atof json key = some (atof
      ((json.drop (i + ('"' :: (key ++ ['"', ':'])).length)).dropWhile (fun c => c = ' '))) ∧
    ∀ (cap : ℕ) (pre val post : List Char),
      json.drop (i + ('"' :: (key ++ ['"', ':'])).length) = pre ++ '"' :: (val ++ '"' :: post) →
      '"' ∉ pre → '"' ∉ val → val.length + 1 ≤ cap →
      get_string_from_json json key cap = some val := by
  have h : strstr json ('"' :: (key ++ ['"', ':'])) = some i :=
    (strstr_eq_some json _ i).mpr ⟨hocc, hfirst⟩
  exact ⟨get_float_from_json_of_strstr atof json key hkey i h,
    fun cap pre val post hrest hpre hval hcap =>
      get_string_from_json_of_strstr json key hkey cap i h pre val post hrest hpre hval hcap⟩

theorem extractors_first_match_witness :
    "op".data.length ≤ 60 ∧
    occurs_at "\x7b\"op\":\"add\",\"op\":\"mul\"\x7d".data ('"' :: ("op".data ++ ['"', ':'])) 1
      = true ∧
    (∀ j, j < 1 →
      occurs_at "\x7b\"op\":\"add\",\"op\":\"mul\"\x7d".data ('"' :: ("op".data ++ ['"', ':'])) j
        = false) ∧
    (get_float_from_json (fun _ => (0 : ℝ)) "\x7b\"op\":\"add\",\"op\":\"mul\"\x7d".data "op".data
      = some ((fun _ => (0 : ℝ)) (("\x7b\"op\":\"add\",\"op\":\"mul\"\x7d".data.drop
          (1 + ('"' :: ("op".data ++ ['"', ':'])).length)).dropWhile (fun c => c = ' '))) ∧
    ∀ (cap : ℕ) (pre val post : List Char),
      "\x7b\"op\":\"add\",\"op\":\"mul\"\x7d".data.drop
          (1 + ('"' :: ("op".data ++ ['"', ':'])).length) = pre ++ '"' :: (val ++ '"' :: post) →
      '"' ∉ pre → '"' ∉ val → val.length + 1 ≤ cap →
      get_string_from_json "\x7b\"op\":\"add\",\"op\":\"mul\"\x7d".data "op".data cap
        = some val) :=
  ⟨by decide, by decide, by decide,
    extractors_first_match (fun _ => (0 : ℝ)) "\x7b\"op\":\"add\",\"op\":\"mul\"\x7d".data
      "op".data (by decide) 1 (by decide) (by decide)⟩

/-- Single mode of `main`: with no batch marker in the context string, the output is the one
number that the chain on `op` computes from the extracted fields. -/
theorem main_single_mode {R : Type} [Field R] (sin cos : R → R) (atof : List Char → R)
    (fuel : ℕ) (argv : List (List Char)) (ctx : List Char)
    (hctx : (if argv.length > 1 then argv[1]? else some ['{', '}']) = some ctx)
    (hb1 : strstr ctx "\"batch\": true".data = none)
    (hb2 : strstr ctx "\"batch\":true".data = none)
    (op : List Char) (hop : get_string_from_json ctx ['o', 'p'] 32 = some op) (a b : R)
    (ha : get_float_from_json atof ctx ['a'] = some a)
    (hb : get_float_from_json atof ctx ['b'] = some b) :
    main sin cos atof fuel argv = some ([Tok.num (apply_op sin cos op a b)], 0) := by
  unfold main
  by_cases h : argv.length > 1
  · rw [if_pos h] at hctx
    simp only [h, if_true, hctx, Option.bind_eq_bind, Option.some_bind, hb1, hb2,
      Option.isSome_none, Bool.or_self, Bool.false_eq_true, if_false, hop, ha, hb,
      Option.pure_def]
  · rw [if_neg h] at hctx
    have hc : ['{', '}'] = ctx := Option.some.inj hctx
    subst hc
    simp only [h, if_false, Option.bind_eq_bind, Option.some_bind, hb1, hb2,
      Option.isSome_none, Bool.or_self, Bool.false_eq_true, hop, ha, hb, Option.pure_def]

/-- C13, as stated, fails on `{"op":"pow","a":2,"b":3}`: the operands are `2` and `3`, the
operation is not one of the four, and the printed result is `0`, not `2 + 3`. -/
theorem unrecognized_op_prints_zero :
    get_string_from_json "\x7b\"op\":\"pow\",\"a\":2,\"b\":3\x7d".data "op".data 32
      = some "pow".data ∧
    get_float_from_json (fun s => ((leading_digits s 0 : ℕ) : ℝ))
      "\x7b\"op\":\"pow\",\"a\":2,\"b\":3\x7d".data "a".data = some 2 ∧
    get_float_from_json (fun s => ((leading_digits s 0 : ℕ) : ℝ))
      "\x7b\"op\":\"pow\",\"a\":2,\"b\":3\x7d".data "b".data = some 3 ∧
    main Real.sin Real.cos (fun s => ((leading_digits s 0 : ℕ) : ℝ)) 8
      ["logic".data, "\x7b\"op\":\"pow\",\"a\":2,\"b\":3\x7d".data] = some ([Tok.num 0], 0) ∧
    (0 : ℝ) ≠ 2 + 3 := by
  have ha : get_float_from_json (fun s => ((leading_digits s 0 : ℕ) : ℝ))
      "\x7b\"op\":\"pow\",\"a\":2,\"b\":3\x7d".data "a".data = some 2 := by
    rw [get_float_from_json_of_strstr _ _ _ (by decide) 12 (by decide)]
    have hd : leading_digits (("\x7b\"op\":\"pow\",\"a\":2,\"b\":3\x7d".data.drop
        (12 + ('"' :: ("a".data ++ ['"', ':'])).length)).dropWhile (fun c => c = ' ')) 0 = 2 := by
      decide
    simp only [hd, Nat.cast_ofNat]
  have hb : get_float_from_json (fun s => ((leading_digits s 0 : ℕ) : ℝ))
      "\x7b\"op\":\"pow\",\"a\":2,\"b\":3\x7d".data "b".data = some 3 := by
    rw [get_float_from_json_of_strstr _ _ _ (by decide) 18 (by decide)]
    have hd : leading_digits (("\x7b\"op\":\"pow\",\"a\":2,\"b\":3\x7d".data.drop
        (18 + ('"' :: ("b".data ++ ['"', ':'])).length)).dropWhile (fun c => c = ' ')) 0 = 3 := by
      decide
    simp only [hd, Nat.cast_ofNat]
  refine ⟨by decide, ha, hb, ?_, by norm_num⟩
  rw [main_single_mode Real.sin Real.cos _ 8 _ "\x7b\"op\":\"pow\",\"a\":2,\"b\":3\x7d".data
    (by decide) (by decide) (by decide) "pow".data (by decide) 2 3 ha hb]
  have : apply_op Real.sin Real.cos "pow".data (2 : ℝ) 3 = 0 := by
    unfold apply_op
    rw [if_neg (by decide), if_neg (by decide), if_neg (by decide), if_neg (by decide)]
  rw [this]

/-- C13, amended: in single mode of `logic_advanced.c` (no batch marker in the input), for
every input whose `"op"` string (of at most 31 bytes, so that it fits `char op[32]`) is none
of `add`, `mul`, `sin`, `cos`, the operands `a` and `b` are extracted and the printed result is
`0`, the initial value of `result`. -/
theorem single_mode_unrecognized_op (sin cos : ℝ → ℝ) (atof : List Char → ℝ) (fuel : ℕ)
    (argv : List (List Char)) (ctx : List Char)
    (hctx : (if argv.length > 1 then argv[1]? else some ['{', '}']) = some ctx)
    (hb1 : strstr ctx "\"batch\": true".data = none)
    (hb2 : strstr ctx "\"batch\":true".data = none)
    (op : List Char) (hop : get_string_from_json ctx ['o', 'p'] 32 = some op)
    (hadd : op ≠ ['a', 'd', 'd']) (hmul : op ≠ ['m', 'u', 'l']) (hsin : op ≠ ['s', 'i', 'n'])
    (hcos : op ≠ ['c', 'o', 's']) :
    ∃ a b, get_float_from_json atof ctx ['a'] = some a ∧
      get_float_from_json atof ctx ['b'] = some b ∧
      main sin cos atof fuel argv = some ([Tok.num 0], 0) := by
  obtain ⟨a, ha⟩ := get_float_from_json_total atof ctx ['a'] (by decide)
  obtain ⟨b, hb⟩ := get_float_from_json_total atof ctx ['b'] (by decide)
  refine ⟨a, b, ha, hb, ?_⟩
  rw [main_single_mode sin cos atof fuel argv ctx hctx hb1 hb2 op hop a b ha hb]
  simp [apply_op, hadd, hmul, hsin, hcos]

theorem single_mode_unrecognized_op_witness :
    ((if ["logic".data, "\x7b\"op\":\"div\",\"a\":8,\"b\":2\x7d".data].length > 1
        then ["logic".data, "\x7b\"op\":\"div\",\"a\":8,\"b\":2\x7d".data][1]?
        else some ['{', '}'])
      = some "\x7b\"op\":\"div\",\"a\":8,\"b\":2\x7d".data) ∧
    strstr "\x7b\"op\":\"div\",\"a\":8,\"b\":2\x7d".data "\"batch\": true".data = none ∧
    strstr "\x7b\"op\":\"div\",\"a\":8,\"b\":2\x7d".data "\"batch\":true".data = none ∧
    get_string_from_json "\x7b\"op\":\"div\",\"a\":8,\"b\":2\x7d".data ['o', 'p'] 32
      = some "div".data ∧
    "div".data ≠ ['a', 'd', 'd'] ∧ "div".data ≠ ['m', 'u', 'l'] ∧
    "div".data ≠ ['s', 'i', 'n'] ∧ "div".data ≠ ['c', 'o', 's'] ∧
    (∃ a b,
      get_float_from_json (fun s => ((leading_digits s 0 : ℕ) : ℝ))
        "\x7b\"op\":\"div\",\"a\":8,\"b\":2\x7d".data ['a'] = some a ∧
      get_float_from_json (fun s => ((leading_digits s 0 : ℕ) : ℝ))
        "\x7b\"op\":\"div\",\"a\":8,\"b\":2\x7d".data ['b'] = some b ∧
      main Real.sin Real.cos (fun s => ((leading_digits s 0 : ℕ) : ℝ)) 8
        ["logic".data, "\x7b\"op\":\"div\",\"a\":8,\"b\":2\x7d".data] = some ([Tok.num 0], 0)) :=
  ⟨by decide, by decide, by decide, by decide, by decide, by decide, by decide, by decide,
    single_mode_unrecognized_op Real.sin Real.cos (fun s => ((leading_digits s 0 : ℕ) : ℝ)) 8
      ["logic".data, "\x7b\"op\":\"div\",\"a\":8,\"b\":2\x7d".data]
      "\x7b\"op\":\"div\",\"a\":8,\"b\":2\x7d".data (by decide) (by decide) (by decide)
      "div".data (by decide) (by decide) (by decide) (by decide) (by decide)⟩

/-- C14 at the input
`{"batch":true,"examples":[{"op":"add","a":1,"b":2}],"meta":{"op":"mul","a":2,"b":3}}`:
the array `examples` holds one object, and the program prints two results, `3` for the
object of the array and `6` for the object that follows the array. -/
theorem batch_reads_past_array :
    main Real.sin Real.cos (fun s => ((leading_digits s 0 : ℕ) : ℝ)) 8
      ["logic".data,
        "\x7b\"batch\":true,\"examples\":[\x7b\"op\":\"add\",\"a\":1,\"b\":2\x7d],\"meta\":\x7b\"op\":\"mul\",\"a\":2,\"b\":3\x7d\x7d".data]
      = some ([Tok.text "[", Tok.num 3, Tok.text ", ", Tok.num 6, Tok.text "]"], 0) := by
  have h : ∀ atof : List Char → ℝ, main Real.sin Real.cos atof 8
      ["logic".data,
        "\x7b\"batch\":true,\"examples\":[\x7b\"op\":\"add\",\"a\":1,\"b\":2\x7d],\"meta\":\x7b\"op\":\"mul\",\"a\":2,\"b\":3\x7d\x7d".data]
      = some ([Tok.text "[", Tok.num (atof "1,\"b\":2\x7d".data + atof "2\x7d".data),
          Tok.text ", ", Tok.num (atof "2,\"b\":3\x7d".data * atof "3\x7d".data),
          Tok.text "]"], 0) := fun _ => rfl
  rw [h]
  have h1 : leading_digits "1,\"b\":2\x7d".data 0 = 1 := by decide
  have h2 : leading_digits "2\x7d".data 0 = 2 := by decide
  have h3 : leading_digits "2,\"b\":3\x7d".data 0 = 2 := by decide
  have h4 : leading_digits "3\x7d".data 0 = 3 := by decide
  simp only [h1, h2, h3, h4]
  norm_num

end LogicAdvanced
